import Mathlib

/-!
Verification development for the CompoAI layered-image compositor.

The definitions below are a shallow embedding of the TypeScript source:
the layer data model (`types.ts`), the mask compositor
(`geminiService.ts`, `applyMaskToImage`), the layer store operations
(`addLayer`, `moveLayer`, `handleRemoveBackground`), the export pipeline
(`handleExport`) and the pointer gesture handlers of the main `App`
component. Machine floats are modelled by exact real/rational arithmetic;
JavaScript truthiness of optional strings (where the empty string is
falsy) is modelled explicitly.
-/

/-- Blend modes from `types.ts` (`BlendMode` enum, 16 values). -/
inductive BlendMode where
  | normal | multiply | screen | overlay | darken | lighten
  | colorDodge | colorBurn | hardLight | softLight | difference
  | exclusion | hue | saturation | color | luminosity
deriving DecidableEq, Repr

/-- Color correction settings from `types.ts` (`ColorCorrection`). -/
structure ColorCorrection where
  brightness : ℝ
  contrast : ℝ
  saturation : ℝ
  hue : ℝ
  blur : ℝ

/-- `DEFAULT_COLOR_CORRECTION` from the `App` component. -/
def DEFAULT_COLOR_CORRECTION : ColorCorrection :=
  { brightness := 100, contrast := 100, saturation := 100, hue := 0, blur := 0 }

/-- A layer, from `types.ts` (`Layer` interface). `originalSrc` is the
optional original source (`originalSrc?: string`), kept for
non-destructive unmasking; `none` models the JS `undefined`. -/
structure Layer where
  id : String
  name : String
  src : String
  originalSrc : Option String
  x : ℝ
  y : ℝ
  width : ℝ
  height : ℝ
  rotation : ℝ
  scale : ℝ
  opacity : ℝ
  blendMode : BlendMode
  isVisible : Bool
  isLocked : Bool
  isMasked : Bool
  zIndex : ℤ
  colorCorrection : ColorCorrection

/-- `MAX_ZOOM` constant of the `App` component. -/
def MAX_ZOOM : ℝ := 5

/-- `MIN_ZOOM` constant of the `App` component. -/
def MIN_ZOOM : ℝ := 0.1

/-! ## Mask compositor (`applyMaskToImage` in `geminiService.ts`) -/

/-- One RGBA pixel of an `ImageData` buffer; channel values are the byte
values `0..255` read from the flat `data` array. -/
structure Rgba where
  r : ℤ
  g : ℤ
  b : ℤ
  a : ℤ
deriving DecidableEq, Repr

/-- The levels curve of `applyMaskToImage`: black point `50`, white
point `200`, linear ramp in between, and the final `Math.floor` applied
to the chosen value (`data[i + 3] = Math.floor(alpha)`). -/
def levelsAlpha (m : ℤ) : ℤ :=
  let blackPoint : ℚ := 50
  let whitePoint : ℚ := 200
  let alpha : ℚ :=
    if (m : ℚ) ≤ blackPoint then 0
    else if whitePoint ≤ (m : ℚ) then 255
    else (((m : ℚ) - blackPoint) / (whitePoint - blackPoint)) * 255
  ⌊alpha⌋

/-- Per-pixel action of the mask-compositing loop: the mask pixel's red
channel (`mData[i]`) drives the destination alpha, the original R, G, B
bytes are written back unchanged. -/
def applyMaskPixel (orig mask : Rgba) : Rgba :=
  { r := orig.r, g := orig.g, b := orig.b, a := levelsAlpha mask.r }

/-- `applyMaskToImage`, pixel-buffer part: both buffers have the same
dimensions (the mask is stretched to the original's size before being
read), and the loop rewrites every destination pixel in place. -/
def applyMaskToImage (orig mask : List Rgba) : List Rgba :=
  List.zipWith applyMaskPixel orig mask

/-- The levels curve exactly as the specification words it: `m ≤ 50 →
α = 0`; `m ≥ 200 → α = 255`; otherwise `α = ⌊(m − 50)/(200 − 50) × 255⌋`. -/
def levelsSpec (m : ℤ) : ℤ :=
  if m ≤ 50 then 0
  else if 200 ≤ m then 255
  else ⌊(((m : ℚ) - 50) / (200 - 50)) * 255⌋

theorem levelsAlpha_eq_levelsSpec (m : ℤ) : levelsAlpha m = levelsSpec m := by
  simp only [levelsAlpha, levelsSpec]
  by_cases h1 : m ≤ 50
  · rw [if_pos (show (m : ℚ) ≤ 50 by exact_mod_cast h1), if_pos h1]
    norm_num
  · rw [if_neg (show ¬(m : ℚ) ≤ 50 from fun h => h1 (by exact_mod_cast h)), if_neg h1]
    by_cases h2 : (200 : ℤ) ≤ m
    · rw [if_pos (show (200 : ℚ) ≤ (m : ℚ) by exact_mod_cast h2), if_pos h2]
      norm_num
    · rw [if_neg (show ¬(200 : ℚ) ≤ (m : ℚ) from fun h => h2 (by exact_mod_cast h)),
        if_neg h2]

/-- C1: for every pixel, the mask compositor reads the mask's red
channel `m` and writes `0` if `m ≤ 50`, `255` if `m ≥ 200`, and
`⌊(m − 50)/(200 − 50) × 255⌋` otherwise into the destination alpha
channel, leaving R, G and B unchanged; luminance `0` maps to alpha `0`,
`255` to `255`, and `125` to `127`. -/
theorem mask_compositor_levels_spec :
    (∀ orig mask : List Rgba,
      applyMaskToImage orig mask =
        List.zipWith (fun o m =>
          { r := o.r, g := o.g, b := o.b, a := levelsSpec m.r : Rgba }) orig mask) ∧
    levelsAlpha 0 = 0 ∧ levelsAlpha 255 = 255 ∧ levelsAlpha 125 = 127 := by
  refine ⟨fun orig mask => ?_, by norm_num [levelsAlpha], by norm_num [levelsAlpha],
    by norm_num [levelsAlpha]⟩
  unfold applyMaskToImage applyMaskPixel
  simp [levelsAlpha_eq_levelsSpec]

/-! ## Mask toggling (`addLayer`, `handleRemoveBackground` in the `App`
component) -/

/-- JavaScript truthiness of an optional string: `undefined` and the
empty string are falsy. -/
def truthyStr : Option String → Bool
  | none => false
  | some s => !(s == "")

/-- The JavaScript `a || b` idiom on an optional string
(`layer.originalSrc || layer.src`). -/
def jsOrStr (o : Option String) (dflt : String) : String :=
  match o with
  | none => dflt
  | some s => if s == "" then dflt else s

/-- The layer produced by `addLayer` for a decoded image source `s`:
`src: s`, `originalSrc: s` ("Store original for non-destructive edits"),
`isMasked: false`. Geometry fields are irrelevant to mask toggling and
are filled with the creation-time values (`INITIAL_LAYER_WIDTH = 300`,
rotation `0`, scale `1`, opacity `1`). -/
def newLayer (id name s : String) (z : ℤ) : Layer :=
  { id := id, name := name, src := s, originalSrc := some s,
    x := 0, y := 0, width := 300, height := 300, rotation := 0,
    scale := 1, opacity := 1, blendMode := BlendMode.normal,
    isVisible := true, isLocked := false, isMasked := false,
    zIndex := z, colorCorrection := DEFAULT_COLOR_CORRECTION }

/-- One invocation of `handleRemoveBackground` on a layer: if
`layer.isMasked && layer.originalSrc` (JS truthiness), restore
`src: layer.originalSrc, isMasked: false`; otherwise mask with the
externally produced result `maskFn layer.src` and set
`originalSrc: layer.originalSrc || layer.src`. -/
def toggleMask (maskFn : String → String) (l : Layer) : Layer :=
  if l.isMasked && truthyStr l.originalSrc then
    { l with src := jsOrStr l.originalSrc "", isMasked := false }
  else
    { l with
      src := maskFn l.src,
      isMasked := true,
      originalSrc := some (jsOrStr l.originalSrc l.src) }

/-- The layer after a sequence of `handleRemoveBackground` toggles, each
with its own external background-removal result. -/
def toggleMaskSeq (fns : List (String → String)) (l : Layer) : Layer :=
  fns.foldl (fun acc f => toggleMask f acc) l

theorem toggleMask_invariant (s : String) (hs : s ≠ "") (maskFn : String → String)
    (l : Layer) (horig : l.originalSrc = some s) (hsrc : l.isMasked = false → l.src = s) :
    (toggleMask maskFn l).originalSrc = some s ∧
      ((toggleMask maskFn l).isMasked = false → (toggleMask maskFn l).src = s) := by
  by_cases hm : l.isMasked
  · simp [toggleMask, hm, horig, truthyStr, jsOrStr, hs]
  · simp only [Bool.not_eq_true] at hm
    simp [toggleMask, hm, horig, truthyStr, jsOrStr, hs, hsrc hm]

/-- C2 (amended): for a layer whose creation source is non-empty, the
original source survives every sequence of mask/unmask toggles, and
whenever the layer is unmasked its displayed source is byte-identical to
the creation source. -/
theorem originalSrc_preserved (id name s : String) (z : ℤ) (hs : s ≠ "")
    (fns : List (String → String)) :
    (toggleMaskSeq fns (newLayer id name s z)).originalSrc = some s ∧
      ((toggleMaskSeq fns (newLayer id name s z)).isMasked = false →
        (toggleMaskSeq fns (newLayer id name s z)).src = s) := by
  unfold toggleMaskSeq
  suffices h : ∀ l : Layer, l.originalSrc = some s → (l.isMasked = false → l.src = s) →
      (fns.foldl (fun acc f => toggleMask f acc) l).originalSrc = some s ∧
        ((fns.foldl (fun acc f => toggleMask f acc) l).isMasked = false →
          (fns.foldl (fun acc f => toggleMask f acc) l).src = s) by
    exact h (newLayer id name s z) rfl (fun _ => rfl)
  induction fns with
  | nil => exact fun l h1 h2 => ⟨h1, h2⟩
  | cons f fs ih =>
    intro l h1 h2
    simp only [List.foldl_cons]
    obtain ⟨h1', h2'⟩ := toggleMask_invariant s hs f l h1 h2
    exact ih (toggleMask f l) h1' h2'

/-- Closed witness for `originalSrc_preserved`. -/
theorem originalSrc_preserved_witness :
    ("img" : String) ≠ "" ∧
      (toggleMaskSeq [fun _ => "masked1", fun _ => "masked2"]
        (newLayer "1" "L" "img" 1)).originalSrc = some "img" := by
  have h := originalSrc_preserved "1" "L" "img" 1 (by decide)
    [fun _ => "masked1", fun _ => "masked2"]
  exact ⟨by decide, h.1⟩

/-- C2 counterexample: a layer created with the empty-string source. The
JS guard `layer.isMasked && layer.originalSrc` treats the empty string as
falsy, so the second toggle re-masks instead of restoring and overwrites
`originalSrc` with the previously masked source; the third toggle then
"restores" to the masked source `"M"`, not to the true original `""`. -/
theorem originalSrc_empty_counterexample :
    (toggleMaskSeq [fun _ => "M", fun _ => "M"] (newLayer "1" "L" "" 1)).originalSrc
        = some "M" ∧
      (toggleMaskSeq [fun _ => "M", fun _ => "M", fun _ => "M"]
          (newLayer "1" "L" "" 1)).isMasked = false ∧
      (toggleMaskSeq [fun _ => "M", fun _ => "M", fun _ => "M"]
          (newLayer "1" "L" "" 1)).src = "M" := by
  refine ⟨rfl, rfl, rfl⟩

/-! ## Geometry kernel and export pipeline (`handleExport` in the `App`
component) -/

/-- The transformed corner x-coordinates computed inside `handleExport`:
the four corners relative to the rectangle's center, with
`tx = cx + (p.x * scale * cos − p.y * scale * sin)`. -/
noncomputable def cornerXs (x _y w h rot scale : ℝ) : List ℝ :=
  let cx := x + w / 2
  let rad := rot * (Real.pi / 180)
  let c := Real.cos rad
  let s := Real.sin rad
  [cx + ((-(w / 2)) * scale * c - (-(h / 2)) * scale * s),
   cx + ((w / 2) * scale * c - (-(h / 2)) * scale * s),
   cx + ((w / 2) * scale * c - (h / 2) * scale * s),
   cx + ((-(w / 2)) * scale * c - (h / 2) * scale * s)]

/-- The transformed corner y-coordinates computed inside `handleExport`:
`ty = cy + (p.x * scale * sin + p.y * scale * cos)`. -/
noncomputable def cornerYs (_x y w h rot scale : ℝ) : List ℝ :=
  let cy := y + h / 2
  let rad := rot * (Real.pi / 180)
  let c := Real.cos rad
  let s := Real.sin rad
  [cy + ((-(w / 2)) * scale * s + (-(h / 2)) * scale * c),
   cy + ((w / 2) * scale * s + (-(h / 2)) * scale * c),
   cy + ((w / 2) * scale * s + (h / 2) * scale * c),
   cy + ((-(w / 2)) * scale * s + (h / 2) * scale * c)]

/-- The geometry kernel `transformedBounds`: the axis-aligned bounding
box `(minX, minY, maxX, maxY)` of a rectangle's four corners after
scale-then-rotate about the rectangle's center, as computed per layer in
`handleExport`. -/
noncomputable def transformedBounds (x y w h rot scale : ℝ) : ℝ × ℝ × ℝ × ℝ :=
  match cornerXs x y w h rot scale, cornerYs x y w h rot scale with
  | [x1, x2, x3, x4], [y1, y2, y3, y4] =>
    (min (min (min x1 x2) x3) x4, min (min (min y1 y2) y3) y4,
     max (max (max x1 x2) x3) x4, max (max (max y1 y2) y3) y4)
  | _, _ => (0, 0, 0, 0)

/-- `updateLayer(id, { rotation: v })`-style field write: the stored
rotation is the raw value, not normalized into `[0, 360)`. -/
def setRotation (l : Layer) (v : ℝ) : Layer :=
  { l with rotation := v }

theorem cos_rad_periodic (θ : ℝ) (k : ℤ) :
    Real.cos ((θ + 360 * k) * (Real.pi / 180)) = Real.cos (θ * (Real.pi / 180)) := by
  have h : (θ + 360 * k) * (Real.pi / 180) = θ * (Real.pi / 180) + k * (2 * Real.pi) := by
    ring
  rw [h, Real.cos_add_int_mul_two_pi]

theorem sin_rad_periodic (θ : ℝ) (k : ℤ) :
    Real.sin ((θ + 360 * k) * (Real.pi / 180)) = Real.sin (θ * (Real.pi / 180)) := by
  have h : (θ + 360 * k) * (Real.pi / 180) = θ * (Real.pi / 180) + k * (2 * Real.pi) := by
    ring
  rw [h, Real.sin_add_int_mul_two_pi]

/-- C4: the transformed bounding box is invariant under adding full
turns (`θ + 360k` for any integer `k`) — in particular rotation `450`
yields the bounding box of rotation `90` — while the stored `rotation`
field keeps the raw value `450`, not a normalized one. -/
theorem transformedBounds_rotation_periodic :
    (∀ (x y w h scale θ : ℝ) (k : ℤ),
      transformedBounds x y w h (θ + 360 * k) scale = transformedBounds x y w h θ scale) ∧
    (∀ x y w h scale : ℝ,
      transformedBounds x y w h 450 scale = transformedBounds x y w h 90 scale) ∧
    (∀ l : Layer, (setRotation l 450).rotation = 450) := by
  have key : ∀ (x y w h scale θ : ℝ) (k : ℤ),
      transformedBounds x y w h (θ + 360 * k) scale = transformedBounds x y w h θ scale := by
    intro x y w h scale θ k
    simp only [transformedBounds, cornerXs, cornerYs]
    rw [cos_rad_periodic θ k, sin_rad_periodic θ k]
  refine ⟨key, fun x y w h scale => ?_, fun l => rfl⟩
  have h450 : (450 : ℝ) = 90 + 360 * (1 : ℤ) := by norm_num
  rw [h450, key x y w h scale 90 1]

/-- Outcome of `handleExport`: the early `return` on an empty store, the
`"No visible layers"` error, or a successful export with the computed
output bitmap dimensions. -/
inductive ExportOutcome where
  | noOp
  | emptyError
  | success (w h : ℝ)

/-- One step of the `if (tx < minX) minX = tx` fold; the `none`
accumulator models the `Infinity` initial value. -/
def jsFoldMin (acc : Option ℝ) (v : ℝ) : Option ℝ :=
  some (match acc with | none => v | some m => min m v)

/-- One step of the `if (tx > maxX) maxX = tx` fold; the `none`
accumulator models the `-Infinity` initial value. -/
def jsFoldMax (acc : Option ℝ) (v : ℝ) : Option ℝ :=
  some (match acc with | none => v | some m => max m v)

/-- The corner x-coordinates a layer contributes to the export
bounding-box fold. -/
noncomputable def layerCornerXs (l : Layer) : List ℝ :=
  cornerXs l.x l.y l.width l.height l.rotation l.scale

/-- The corner y-coordinates a layer contributes to the export
bounding-box fold. -/
noncomputable def layerCornerYs (l : Layer) : List ℝ :=
  cornerYs l.x l.y l.width l.height l.rotation l.scale

/-- The `minX/minY/maxX/maxY` fold of `handleExport` over every
transformed corner of every layer in the list, starting from
`±Infinity` (`none`). -/
noncomputable def exportBBox (ls : List Layer) : Option (ℝ × ℝ × ℝ × ℝ) :=
  let txs := ls.flatMap layerCornerXs
  let tys := ls.flatMap layerCornerYs
  match txs.foldl jsFoldMin none, tys.foldl jsFoldMin none,
      txs.foldl jsFoldMax none, tys.foldl jsFoldMax none with
  | some mnX, some mnY, some mxX, some mxY => some (mnX, mnY, mxX, mxY)
  | _, _, _, _ => none

/-- `handleExport`: the early `if (layers.length === 0) return`, the
`visibleLayers.length === 0` error, and otherwise an output bitmap of
`Math.abs(maxX - minX) × Math.abs(maxY - minY)`. The `none` bounding-box
branch is unreachable (`exportBBox` is `some` on every non-empty list,
matching the `Infinity` initial values being overwritten by the first
corner). -/
noncomputable def handleExport (ls : List Layer) : ExportOutcome :=
  if ls.length = 0 then ExportOutcome.noOp
  else if (ls.filter (fun l => l.isVisible)).length = 0 then ExportOutcome.emptyError
  else
    match exportBBox (ls.filter (fun l => l.isVisible)) with
    | some (mnX, mnY, mxX, mxY) => ExportOutcome.success |mxX - mnX| |mxY - mnY|
    | none => ExportOutcome.emptyError

theorem foldl_jsFoldMin_some (xs : List ℝ) (m : ℝ) :
    ∃ v, xs.foldl jsFoldMin (some m) = some v := by
  induction xs generalizing m with
  | nil => exact ⟨m, rfl⟩
  | cons x xs ih => exact ih (min m x)

theorem foldl_jsFoldMax_some (xs : List ℝ) (m : ℝ) :
    ∃ v, xs.foldl jsFoldMax (some m) = some v := by
  induction xs generalizing m with
  | nil => exact ⟨m, rfl⟩
  | cons x xs ih => exact ih (max m x)

theorem foldl_jsFoldMin_ne_nil (xs : List ℝ) (h : xs ≠ []) :
    ∃ v, xs.foldl jsFoldMin none = some v := by
  match xs, h with
  | x :: xs, _ => exact foldl_jsFoldMin_some xs x

theorem foldl_jsFoldMax_ne_nil (xs : List ℝ) (h : xs ≠ []) :
    ∃ v, xs.foldl jsFoldMax none = some v := by
  match xs, h with
  | x :: xs, _ => exact foldl_jsFoldMax_some xs x

theorem cornerXs_ne_nil (x y w h rot scale : ℝ) : cornerXs x y w h rot scale ≠ [] := by
  simp [cornerXs]

theorem cornerYs_ne_nil (x y w h rot scale : ℝ) : cornerYs x y w h rot scale ≠ [] := by
  simp [cornerYs]

theorem exportBBox_isSome (ls : List Layer) (hne : ls ≠ []) :
    ∃ bb, exportBBox ls = some bb := by
  obtain ⟨l, ls', rfl⟩ := List.exists_cons_of_ne_nil hne
  have hx : (l :: ls').flatMap layerCornerXs ≠ [] := by
    simp only [List.flatMap_cons]
    intro hcon
    exact cornerXs_ne_nil l.x l.y l.width l.height l.rotation l.scale
      (List.append_eq_nil.mp hcon).1
  have hy : (l :: ls').flatMap layerCornerYs ≠ [] := by
    simp only [List.flatMap_cons]
    intro hcon
    exact cornerYs_ne_nil l.x l.y l.width l.height l.rotation l.scale
      (List.append_eq_nil.mp hcon).1
  obtain ⟨a, ha⟩ := foldl_jsFoldMin_ne_nil _ hx
  obtain ⟨b, hb⟩ := foldl_jsFoldMin_ne_nil _ hy
  obtain ⟨c, hc⟩ := foldl_jsFoldMax_ne_nil _ hx
  obtain ⟨d, hd⟩ := foldl_jsFoldMax_ne_nil _ hy
  refine ⟨(a, b, c, d), ?_⟩
  simp only [exportBBox, ha, hb, hc, hd]

/-- C6 counterexample: the empty layer store has no visible layer, yet
`handleExport` returns via the early `layers.length === 0` guard without
raising the empty-export error. -/
theorem export_empty_store_counterexample :
    (∀ l ∈ ([] : List Layer), l.isVisible = false) ∧
      handleExport [] = ExportOutcome.noOp ∧
      handleExport [] ≠ ExportOutcome.emptyError := by
  refine ⟨by simp, rfl, fun h => ?_⟩
  rw [show handleExport [] = ExportOutcome.noOp from rfl] at h
  exact ExportOutcome.noConfusion h

/-- C6 (amended): for every non-empty layer store in which no layer is
visible, export filters the layers to the visible ones and fails fast
with the empty-result error instead of producing an output bitmap. -/
theorem export_no_visible_emptyError (ls : List Layer) (hne : ls ≠ [])
    (hv : ∀ l ∈ ls, l.isVisible = false) : handleExport ls = ExportOutcome.emptyError := by
  have hlen : ¬ls.length = 0 := fun h => hne (List.length_eq_zero.mp h)
  have hfil : (ls.filter (fun l => l.isVisible)).length = 0 := by
    rw [List.filter_eq_nil_iff.mpr (fun a ha => by simp [hv a ha])]
    rfl
  simp only [handleExport, if_neg hlen, if_pos hfil]

/-- Closed witness for `export_no_visible_emptyError`. -/
theorem export_no_visible_emptyError_witness :
    ({ newLayer "1" "L" "img" 1 with isVisible := false } :: [] ≠ ([] : List Layer)) ∧
      handleExport [{ newLayer "1" "L" "img" 1 with isVisible := false }] =
        ExportOutcome.emptyError := by
  refine ⟨by simp, ?_⟩
  exact export_no_visible_emptyError _ (by simp) (by simp [newLayer])

/-- C10: exporting an empty layer store returns immediately with no
error and no output, and the empty-export error can only arise from a
non-empty store whose layers are all invisible. -/
theorem export_empty_noop_and_error_iff :
    handleExport [] = ExportOutcome.noOp ∧
      ∀ ls : List Layer, handleExport ls = ExportOutcome.emptyError →
        ls ≠ [] ∧ ∀ l ∈ ls, l.isVisible = false := by
  refine ⟨rfl, fun ls h => ?_⟩
  by_cases hlen : ls.length = 0
  · rw [show handleExport ls = ExportOutcome.noOp by simp [handleExport, hlen]] at h
    exact ExportOutcome.noConfusion h
  · have hne : ls ≠ [] := fun hcon => hlen (by simp [hcon])
    refine ⟨hne, ?_⟩
    by_cases hfil : (ls.filter (fun l => l.isVisible)).length = 0
    · intro l hl
      have hfe : ls.filter (fun l => l.isVisible) = [] := List.length_eq_zero.mp hfil
      have := List.filter_eq_nil_iff.mp hfe l hl
      simpa using this
    · exfalso
      have hfne : ls.filter (fun l => l.isVisible) ≠ [] :=
        fun hcon => hfil (by simp [hcon])
      obtain ⟨⟨a, b, c, d⟩, hbb⟩ := exportBBox_isSome _ hfne
      rw [show handleExport ls = ExportOutcome.success |c - a| |d - b| by
        simp only [handleExport, if_neg hlen, if_neg hfil, hbb]] at h
      exact ExportOutcome.noConfusion h

/-- Closed witness for `export_empty_noop_and_error_iff`. -/
theorem export_empty_noop_witness :
    [{ newLayer "2" "L" "img" 1 with isVisible := false }] ≠ ([] : List Layer) ∧
      ∀ l ∈ [({ newLayer "2" "L" "img" 1 with isVisible := false } : Layer)],
        l.isVisible = false :=
  export_empty_noop_and_error_iff.2
    [{ newLayer "2" "L" "img" 1 with isVisible := false }] rfl

/-! ## Gesture state machine (`handlePointerDown`, `handleTransformStart`,
`handlePointerMove`, `handlePointerUp`, `handleWheel`) -/

/-- The canvas viewport: `{ x, y, scale }` with
`screen = world * scale + offset`. -/
structure Viewport where
  x : ℝ
  y : ℝ
  scale : ℝ

/-- The JavaScript `value || 1` idiom on an optional number
(`transformRef.current.startCursorDist || 1`): `undefined` and `0` are
falsy. -/
noncomputable def jsOrOne (o : Option ℝ) : ℝ :=
  match o with
  | none => 1
  | some d => if d = 0 then 1 else d

/-- The scale computed by the `ScalingLayer` branch of
`handlePointerMove`: `scaleRatio = currentDist / startDist` with
`startDist = startCursorDist || 1`, and
`newScale = Math.max(0.1, startVal * scaleRatio)`. -/
noncomputable def scalingNewScale (startCursorDist : Option ℝ) (startVal currentDist : ℝ) : ℝ :=
  let startDist := jsOrOne startCursorDist
  let scaleRatio := currentDist / startDist
  max 0.1 (startVal * scaleRatio)

/-- C8: the scaling pointer-move never divides by zero — a recorded
anchor distance of `0` (and an unset one) is replaced by the minimum
anchor distance `1` — and the resulting scale is always a well-defined
number floored at `0.1`. -/
theorem scaling_no_div_by_zero :
    (∀ o : Option ℝ, jsOrOne o ≠ 0) ∧
    jsOrOne (some 0) = 1 ∧ jsOrOne none = 1 ∧
    (∀ (o : Option ℝ) (startVal currentDist : ℝ),
      scalingNewScale o startVal currentDist =
        max 0.1 (startVal * (currentDist / jsOrOne o)) ∧
      0.1 ≤ scalingNewScale o startVal currentDist) := by
  have hne : ∀ o : Option ℝ, jsOrOne o ≠ 0 := by
    intro o
    match o with
    | none => norm_num [jsOrOne]
    | some d =>
      by_cases hd : d = 0
      · simp [jsOrOne, hd]
      · simp [jsOrOne, hd]
  refine ⟨hne, by norm_num [jsOrOne], rfl, fun o startVal currentDist => ⟨rfl, ?_⟩⟩
  exact le_max_left 0.1 _

/-- `handleWheel`: with a zoom modifier held, the wheel delta is scaled
by `0.001` and added to the viewport scale, clamped to
`[MIN_ZOOM, MAX_ZOOM]`; otherwise the viewport is untouched. -/
def handleWheel (zoomModifier : Bool) (deltaY : ℝ) (vp : Viewport) : Viewport :=
  if zoomModifier then
    { vp with scale := min (max (vp.scale + -deltaY * 0.001) MIN_ZOOM) MAX_ZOOM }
  else vp

/-- C9: starting from a viewport scale in `[0.1, 5]`, any wheel event —
with or without the zoom modifier — leaves the viewport scale in
`[0.1, 5]`; with the modifier held the new scale is exactly the delta-
adjusted scale clamped to that interval. -/
theorem wheel_zoom_clamped (vp : Viewport) (zoomModifier : Bool) (deltaY : ℝ)
    (hlo : 0.1 ≤ vp.scale) (hhi : vp.scale ≤ 5) :
    (0.1 ≤ (handleWheel zoomModifier deltaY vp).scale ∧
      (handleWheel zoomModifier deltaY vp).scale ≤ 5) ∧
    (zoomModifier = true →
      (handleWheel zoomModifier deltaY vp).scale =
        min (max (vp.scale + -deltaY * 0.001) 0.1) 5) := by
  cases zoomModifier with
  | false => exact ⟨⟨hlo, hhi⟩, fun h => Bool.noConfusion h⟩
  | true =>
    refine ⟨⟨?_, ?_⟩, fun _ => rfl⟩
    · simp only [handleWheel, if_pos]
      exact le_min (le_trans (le_max_right _ _) (le_refl _)) (by norm_num [MIN_ZOOM, MAX_ZOOM])
    · simp only [handleWheel, if_pos]
      exact min_le_right _ _

/-- Closed witness for `wheel_zoom_clamped`. -/
theorem wheel_zoom_clamped_witness :
    (0.1 ≤ (1 : ℝ) ∧ (1 : ℝ) ≤ 5) ∧
      (0.1 ≤ (handleWheel true 100 ⟨0, 0, 1⟩).scale ∧
        (handleWheel true 100 ⟨0, 0, 1⟩).scale ≤ 5) := by
  have h := wheel_zoom_clamped ⟨0, 0, 1⟩ true 100 (by norm_num) (by norm_num)
  exact ⟨⟨by norm_num, by norm_num⟩, h.1⟩

/-- `Math.atan2(y, x)` (used for the rotation gesture). -/
noncomputable def jsAtan2 (y x : ℝ) : ℝ := Complex.arg ⟨x, y⟩

/-- `Math.hypot(x, y)` (used for the scaling gesture). -/
noncomputable def jsHypot (x y : ℝ) : ℝ := Real.sqrt (x ^ 2 + y ^ 2)

/-- The `transformRef` contents set by `handleTransformStart`. -/
structure TransformRef where
  isRotate : Bool
  startVal : ℝ
  startCursorAngle : Option ℝ
  startCursorDist : Option ℝ
  centerX : ℝ
  centerY : ℝ

/-- The interaction state of the `App` component: the layer store, the
selection, and the interaction refs (`dragStartRef`,
`initialLayerStateRef`, `isDraggingLayerRef`, `transformRef`). -/
structure AppState where
  layers : List Layer
  selectedLayerId : Option String
  dragStart : Option (ℝ × ℝ)
  initialLayerState : Option (ℝ × ℝ)
  isDraggingLayer : Bool
  transform : Option TransformRef
  viewport : Viewport

/-- `updateLayer(id, updates)`:
`prev.map(l => l.id === id ? { ...l, ...updates } : l)`. -/
def updateLayerBy (ls : List Layer) (id : String) (f : Layer → Layer) : List Layer :=
  ls.map (fun l => if l.id == id then f l else l)

/-- `layers.find(l => l.id === id)`. -/
def findLayer (ls : List Layer) (id : String) : Option Layer :=
  ls.find? (fun l => l.id == id)

/-- Pointer and panel events driving the interaction state. A
`toggleLock` is the layers-panel lock button; with the single pointer of
the gesture model a panel click can only complete while no canvas
gesture is active (crossing from the canvas to the panel fires
`onPointerLeave`, which runs `handlePointerUp` and clears every ref), so
the event is a no-op while `dragStartRef` or `transformRef` is set. -/
inductive PEvent where
  | pointerDownLayer (id : String) (cx cy : ℝ)
  | pointerDownCanvas (cx cy : ℝ)
  | transformStart (isRotate : Bool) (cx cy : ℝ)
  | pointerMove (cx cy : ℝ)
  | pointerUp
  | toggleLock (id : String)

/-- `handlePointerDown` with a `layerId` argument (pointer-down on a
layer body): select and arm the drag only when the layer exists and is
unlocked; a falsy (empty) `layerId` falls through to the canvas-pan
branch. -/
def stepPointerDownLayer (st : AppState) (id : String) (cx cy : ℝ) : AppState :=
  if id == "" then
    { st with
      isDraggingLayer := false,
      dragStart := some (cx, cy),
      initialLayerState := some (st.viewport.x, st.viewport.y) }
  else
    match findLayer st.layers id with
    | some l =>
      if l.isLocked then st
      else
        { st with
          selectedLayerId := some id,
          isDraggingLayer := true,
          dragStart := some (cx, cy),
          initialLayerState := some (l.x, l.y) }
    | none => st

/-- `handleTransformStart`: only reachable through the rotate/scale
handles, which are rendered only for the selected, unlocked layer
(`selectedLayerId === layer.id && !layer.isLocked` in the canvas
markup), so a locked selected layer never arms `transformRef`. -/
noncomputable def stepTransformStart (st : AppState) (isRotate : Bool) (cx cy : ℝ) :
    AppState :=
  match st.selectedLayerId with
  | none => st
  | some sel =>
    match findLayer st.layers sel with
    | none => st
    | some l =>
      if l.isLocked then st
      else
        let screenCenterX := (l.x + l.width / 2) * st.viewport.scale + st.viewport.x
        let screenCenterY := (l.y + l.height / 2) * st.viewport.scale + st.viewport.y
        if isRotate then
          { st with
            transform := some
              { isRotate := true, startVal := l.rotation,
                startCursorAngle := some (jsAtan2 (cy - screenCenterY) (cx - screenCenterX)),
                startCursorDist := none,
                centerX := screenCenterX, centerY := screenCenterY } }
        else
          { st with
            transform := some
              { isRotate := false, startVal := l.scale,
                startCursorAngle := none,
                startCursorDist := some (jsHypot (cx - screenCenterX) (cy - screenCenterY)),
                centerX := screenCenterX, centerY := screenCenterY } }

/-- `handlePointerMove`: the transform branch (guarded by
`transformRef.current && selectedLayerId`, with JS truthiness on the
id), then the drag/pan branch. -/
noncomputable def stepPointerMove (st : AppState) (cx cy : ℝ) : AppState :=
  if st.transform.isSome && truthyStr st.selectedLayerId then
    match st.transform, st.selectedLayerId with
    | some tr, some sel =>
      if tr.isRotate then
        let currentAngle := jsAtan2 (cy - tr.centerY) (cx - tr.centerX)
        let startAngle := match tr.startCursorAngle with | none => 0 | some a => a
        let deltaDeg := (currentAngle - startAngle) * (180 / Real.pi)
        { st with
          layers := updateLayerBy st.layers sel
            (fun l => { l with rotation := tr.startVal + deltaDeg }) }
      else
        let currentDist := jsHypot (cx - tr.centerX) (cy - tr.centerY)
        { st with
          layers := updateLayerBy st.layers sel
            (fun l => { l with
              scale := scalingNewScale tr.startCursorDist tr.startVal currentDist }) }
    | _, _ => st
  else
    match st.dragStart, st.initialLayerState with
    | some (sx, sy), some (ix, iy) =>
      if st.isDraggingLayer && truthyStr st.selectedLayerId then
        match st.selectedLayerId with
        | some sel =>
          match findLayer st.layers sel with
          | some l =>
            if l.isLocked then st
            else
              { st with
                layers := updateLayerBy st.layers sel
                  (fun m => { m with
                    x := ix + (cx - sx) / st.viewport.scale,
                    y := iy + (cy - sy) / st.viewport.scale }) }
          | none => st
        | none => st
      else if st.isDraggingLayer then st
      else
        { st with viewport := { st.viewport with x := ix + (cx - sx), y := iy + (cy - sy) } }
    | _, _ => st

/-- `handlePointerUp` (also fired by `onPointerLeave`): clear every ref. -/
def stepPointerUp (st : AppState) : AppState :=
  { st with
    dragStart := none,
    initialLayerState := none,
    isDraggingLayer := false,
    transform := none }

/-- The lock button of the layers panel:
`updateLayer(id, { isLocked: !layer.isLocked })`; a no-op while a canvas
gesture holds `dragStartRef` or `transformRef` (see `PEvent`). -/
def stepToggleLock (st : AppState) (id : String) : AppState :=
  if st.dragStart.isNone && st.transform.isNone then
    { st with layers := updateLayerBy st.layers id (fun l => { l with isLocked := !l.isLocked }) }
  else st

/-- One interaction event. -/
noncomputable def step (st : AppState) (e : PEvent) : AppState :=
  match e with
  | .pointerDownLayer id cx cy => stepPointerDownLayer st id cx cy
  | .pointerDownCanvas cx cy =>
      { st with
        isDraggingLayer := false,
        dragStart := some (cx, cy),
        initialLayerState := some (st.viewport.x, st.viewport.y) }
  | .transformStart isRotate cx cy => stepTransformStart st isRotate cx cy
  | .pointerMove cx cy => stepPointerMove st cx cy
  | .pointerUp => stepPointerUp st
  | .toggleLock id => stepToggleLock st id

/-- Interaction-state invariant: layer ids are pairwise distinct, an
armed `transformRef` or drag always targets an unlocked selected layer,
and an armed drag implies an armed `dragStartRef`. -/
def GestureInv (st : AppState) : Prop :=
  st.layers.Pairwise (fun a b => a.id ≠ b.id) ∧
  (st.transform.isSome = true → ∀ sel, st.selectedLayerId = some sel →
    ∀ l ∈ st.layers, l.id = sel → l.isLocked = false) ∧
  (st.isDraggingLayer = true → ∀ sel, st.selectedLayerId = some sel →
    ∀ l ∈ st.layers, l.id = sel → l.isLocked = false) ∧
  (st.isDraggingLayer = true → st.dragStart.isSome = true)

theorem layers_id_unique {ls : List Layer} (hpw : ls.Pairwise (fun a b => a.id ≠ b.id))
    {a b : Layer} (ha : a ∈ ls) (hb : b ∈ ls) (hid : a.id = b.id) : a = b := by
  by_contra hne
  exact hpw.forall (fun x y h => h.symm) ha hb hne hid

theorem findLayer_spec {ls : List Layer} {id : String} {l : Layer}
    (h : findLayer ls id = some l) : l ∈ ls ∧ l.id = id := by
  refine ⟨List.mem_of_find?_eq_some h, ?_⟩
  have := List.find?_some h
  simpa using this

theorem updateLayerBy_mem {ls : List Layer} {id : String} {f : Layer → Layer}
    {l' : Layer} (h : l' ∈ updateLayerBy ls id f) :
    ∃ m ∈ ls, l' = (if m.id == id then f m else m) := by
  obtain ⟨m, hm, hgm⟩ := List.mem_map.mp h
  exact ⟨m, hm, hgm.symm⟩

theorem updateLayerBy_id_isLocked {ls : List Layer} {id : String} {f : Layer → Layer}
    {l' : Layer} (h : l' ∈ updateLayerBy ls id f)
    (hid : ∀ m, (f m).id = m.id) (hlock : ∀ m, (f m).isLocked = m.isLocked) :
    ∃ m ∈ ls, l'.id = m.id ∧ l'.isLocked = m.isLocked := by
  obtain ⟨m, hm, hg⟩ := updateLayerBy_mem h
  by_cases hc : (m.id == id) = true
  · rw [hg, if_pos hc]
    exact ⟨m, hm, hid m, hlock m⟩
  · rw [hg, if_neg hc]
    exact ⟨m, hm, rfl, rfl⟩

theorem updateLayerBy_pairwise {ls : List Layer} {id : String} {f : Layer → Layer}
    (hid : ∀ m, (f m).id = m.id) (hpw : ls.Pairwise (fun a b => a.id ≠ b.id)) :
    (updateLayerBy ls id f).Pairwise (fun a b => a.id ≠ b.id) := by
  unfold updateLayerBy
  rw [List.pairwise_map]
  refine hpw.imp_of_mem ?_
  intro a b _ _ hab
  by_cases hca : (a.id == id) = true <;> by_cases hcb : (b.id == id) = true <;>
    simp [hca, hcb, hid, hab]

theorem gestureInv_step (st : AppState) (hinv : GestureInv st) (e : PEvent) :
    GestureInv (step st e) := by
  obtain ⟨ls, selId, ds, ils, idl, tf, vp⟩ := st
  obtain ⟨hpw, htr, hdr, hds⟩ := hinv
  cases e with
  | pointerDownLayer id cx cy =>
    simp only [step, stepPointerDownLayer]
    split
    · exact ⟨hpw, htr, fun h => Bool.noConfusion h, fun h => Bool.noConfusion h⟩
    · split
      · next l heq =>
        split
        · exact ⟨hpw, htr, hdr, hds⟩
        · next hl =>
          obtain ⟨hmem, hlid⟩ := findLayer_spec heq
          have hunlocked : ∀ m ∈ ls, m.id = id → m.isLocked = false := by
            intro m hm hmid
            rw [layers_id_unique hpw hm hmem (hmid.trans hlid.symm)]
            exact Bool.not_eq_true _ |>.mp hl
          refine ⟨hpw, ?_, ?_, fun _ => rfl⟩
          · intro _ sel' hsel' m hm hmid
            cases hsel'
            exact hunlocked m hm hmid
          · intro _ sel' hsel' m hm hmid
            cases hsel'
            exact hunlocked m hm hmid
      · exact ⟨hpw, htr, hdr, hds⟩
  | pointerDownCanvas cx cy =>
    simp only [step]
    exact ⟨hpw, htr, fun h => Bool.noConfusion h, fun h => Bool.noConfusion h⟩
  | transformStart isRotate cx cy =>
    simp only [step, stepTransformStart]
    split
    · exact ⟨hpw, htr, hdr, hds⟩
    · next sel =>
      split
      · exact ⟨hpw, htr, hdr, hds⟩
      · next l heq =>
        split
        · exact ⟨hpw, htr, hdr, hds⟩
        · next hl =>
          obtain ⟨hmem, hlid⟩ := findLayer_spec heq
          have hc2 : ∀ sel', some sel = some sel' → ∀ m ∈ ls, m.id = sel' →
              m.isLocked = false := by
            intro sel' hsel' m hm hmid
            cases hsel'
            rw [layers_id_unique hpw hm hmem (hmid.trans hlid.symm)]
            exact Bool.not_eq_true _ |>.mp hl
          split
          · exact ⟨hpw, fun _ => hc2, fun _ => hc2, hds⟩
          · exact ⟨hpw, fun _ => hc2, fun _ => hc2, hds⟩
  | pointerMove cx cy =>
    simp only [step, stepPointerMove]
    split
    · next hA =>
      split
      · next tr sel =>
        have hup : ∀ f : Layer → Layer, (∀ m, (f m).id = m.id) →
            (∀ m, (f m).isLocked = m.isLocked) →
            GestureInv ⟨updateLayerBy ls sel f, some sel, ds, ils, idl, some tr, vp⟩ := by
          intro f hfid hflock
          refine ⟨updateLayerBy_pairwise hfid hpw, ?_, ?_, hds⟩
          · intro h sel' hsel' m hm hmid
            obtain ⟨m0, hm0, hid0, hlock0⟩ := updateLayerBy_id_isLocked hm hfid hflock
            rw [hlock0]
            exact htr h sel' hsel' m0 hm0 (hid0 ▸ hmid)
          · intro h sel' hsel' m hm hmid
            obtain ⟨m0, hm0, hid0, hlock0⟩ := updateLayerBy_id_isLocked hm hfid hflock
            rw [hlock0]
            exact hdr h sel' hsel' m0 hm0 (hid0 ▸ hmid)
        split
        · exact hup _ (fun m => rfl) (fun m => rfl)
        · exact hup _ (fun m => rfl) (fun m => rfl)
      · exact ⟨hpw, htr, hdr, hds⟩
    · next hA =>
      split
      · next sx sy ix iy =>
        split
        · next hB =>
          split
          · next sel =>
            split
            · next l heq =>
              split
              · exact ⟨hpw, htr, hdr, hds⟩
              · next hl =>
                refine ⟨updateLayerBy_pairwise (fun m => rfl) hpw, ?_, ?_, hds⟩
                · intro h sel' hsel' m hm hmid
                  obtain ⟨m0, hm0, hid0, hlock0⟩ :=
                    updateLayerBy_id_isLocked hm (fun m => rfl) (fun m => rfl)
                  rw [hlock0]
                  exact htr h sel' hsel' m0 hm0 (hid0 ▸ hmid)
                · intro h sel' hsel' m hm hmid
                  obtain ⟨m0, hm0, hid0, hlock0⟩ :=
                    updateLayerBy_id_isLocked hm (fun m => rfl) (fun m => rfl)
                  rw [hlock0]
                  exact hdr h sel' hsel' m0 hm0 (hid0 ▸ hmid)
            · exact ⟨hpw, htr, hdr, hds⟩
          · exact ⟨hpw, htr, hdr, hds⟩
        · split
          · exact ⟨hpw, htr, hdr, hds⟩
          · exact ⟨hpw, htr, hdr, hds⟩
      · exact ⟨hpw, htr, hdr, hds⟩
  | pointerUp =>
    simp only [step, stepPointerUp]
    exact ⟨hpw, fun h => Bool.noConfusion h, fun h => Bool.noConfusion h,
      fun h => Bool.noConfusion h⟩
  | toggleLock id =>
    simp only [step, stepToggleLock]
    split
    · next hg =>
      rw [Bool.and_eq_true] at hg
      have hdnone : ds = none := Option.isNone_iff_eq_none.mp hg.1
      have htnone : tf = none := Option.isNone_iff_eq_none.mp hg.2
      refine ⟨updateLayerBy_pairwise (fun m => rfl) hpw, ?_, ?_, ?_⟩
      · intro h
        rw [htnone] at h
        exact absurd h (by simp)
      · intro h
        have h4 := hds h
        rw [hdnone] at h4
        exact absurd h4 (by simp)
      · intro h
        have h4 := hds h
        rw [hdnone] at h4
        exact absurd h4 (by simp)
    · exact ⟨hpw, htr, hdr, hds⟩

theorem updateLayerBy_miss {ls : List Layer} {id : String} {f : Layer → Layer}
    (hpw : ls.Pairwise (fun a b => a.id ≠ b.id))
    {l : Layer} (hl : l ∈ ls) (hne : ¬(l.id = id))
    {l' : Layer} (hl' : l' ∈ updateLayerBy ls id f) (hlid : l'.id = l.id)
    (hid : ∀ m, (f m).id = m.id) : l' = l := by
  obtain ⟨m, hm, hg⟩ := updateLayerBy_mem hl'
  by_cases hc : (m.id == id) = true
  · exfalso
    rw [hg, if_pos hc] at hlid
    rw [hid m] at hlid
    exact hne (hlid.symm.trans (by simpa using hc))
  · rw [hg, if_neg hc] at hlid ⊢
    exact layers_id_unique hpw hm hl hlid

theorem step_locked_geometry (st : AppState) (hinv : GestureInv st) (e : PEvent) :
    ∀ l ∈ st.layers, l.isLocked = true → ∀ l' ∈ (step st e).layers, l'.id = l.id →
      l'.x = l.x ∧ l'.y = l.y ∧ l'.rotation = l.rotation ∧ l'.scale = l.scale := by
  obtain ⟨ls, selId, ds, ils, idl, tf, vp⟩ := st
  obtain ⟨hpw, htr, hdr, hds⟩ := hinv
  have same : ∀ l ∈ ls, ∀ l' ∈ ls, l'.id = l.id →
      l'.x = l.x ∧ l'.y = l.y ∧ l'.rotation = l.rotation ∧ l'.scale = l.scale := by
    intro l hl l' hl' hlid
    obtain rfl := layers_id_unique hpw hl' hl hlid
    exact ⟨rfl, rfl, rfl, rfl⟩
  intro l hl hlock
  cases e with
  | pointerDownLayer id cx cy =>
    simp only [step, stepPointerDownLayer]
    split
    · exact same l hl
    · split
      · split
        · exact same l hl
        · exact same l hl
      · exact same l hl
  | pointerDownCanvas cx cy =>
    simp only [step]
    exact same l hl
  | transformStart isRotate cx cy =>
    simp only [step, stepTransformStart]
    split
    · exact same l hl
    · split
      · exact same l hl
      · split
        · exact same l hl
        · split
          · exact same l hl
          · exact same l hl
  | pointerMove cx cy =>
    simp only [step, stepPointerMove]
    split
    · next hA =>
      split
      · next tr sel =>
        have hne : ¬(l.id = sel) := fun hcon =>
          Bool.noConfusion ((htr rfl sel rfl l hl hcon).symm.trans hlock)
        split
        · intro l' hl' hlid
          obtain rfl := updateLayerBy_miss hpw hl hne hl' hlid (fun m => rfl)
          exact ⟨rfl, rfl, rfl, rfl⟩
        · intro l' hl' hlid
          obtain rfl := updateLayerBy_miss hpw hl hne hl' hlid (fun m => rfl)
          exact ⟨rfl, rfl, rfl, rfl⟩
      · exact same l hl
    · next hA =>
      split
      · next sx sy ix iy =>
        split
        · next hB =>
          split
          · next sel =>
            split
            · next m heq =>
              split
              · exact same l hl
              · next hml =>
                obtain ⟨hmm, hmid⟩ := findLayer_spec heq
                have hne : ¬(l.id = sel) := by
                  intro hcon
                  obtain rfl := layers_id_unique hpw hmm hl (hmid.trans hcon.symm)
                  exact hml hlock
                intro l' hl' hlid
                obtain rfl := updateLayerBy_miss hpw hl hne hl' hlid (fun m => rfl)
                exact ⟨rfl, rfl, rfl, rfl⟩
            · exact same l hl
          · exact same l hl
        · split
          · exact same l hl
          · exact same l hl
      · exact same l hl
  | pointerUp =>
    simp only [step, stepPointerUp]
    exact same l hl
  | toggleLock id =>
    simp only [step, stepToggleLock]
    split
    · intro l' hl' hlid
      obtain ⟨m, hm, hg⟩ := updateLayerBy_mem hl'
      by_cases hc : (m.id == id) = true
      · rw [hg, if_pos hc] at hlid ⊢
        obtain rfl := layers_id_unique hpw hm hl hlid
        exact ⟨rfl, rfl, rfl, rfl⟩
      · rw [hg, if_neg hc] at hlid ⊢
        obtain rfl := layers_id_unique hpw hm hl hlid
        exact ⟨rfl, rfl, rfl, rfl⟩
    · exact same l hl

/-- C7: under the interaction invariant, a locked layer is never the
drag or transform target, a pointer-down on a locked layer body is
silently ignored (the state is unchanged and no error is raised — every
handler is total), every event preserves the invariant, and no event
ever changes a locked layer's position, rotation or scale. -/
theorem locked_layer_inert (st : AppState) (hinv : GestureInv st) :
    (∀ e, GestureInv (step st e)) ∧
    ∀ l ∈ st.layers, l.isLocked = true →
      ¬(st.isDraggingLayer = true ∧ st.selectedLayerId = some l.id) ∧
      ¬(st.transform.isSome = true ∧ st.selectedLayerId = some l.id) ∧
      ((l.id == "") = false → ∀ cx cy,
        step st (PEvent.pointerDownLayer l.id cx cy) = st) ∧
      (∀ e, ∀ l' ∈ (step st e).layers, l'.id = l.id →
        l'.x = l.x ∧ l'.y = l.y ∧ l'.rotation = l.rotation ∧ l'.scale = l.scale) := by
  refine ⟨gestureInv_step st hinv, fun l hl hlock => ⟨?_, ?_, ?_, ?_⟩⟩
  · rintro ⟨hd, hsel⟩
    exact Bool.noConfusion ((hinv.2.2.1 hd l.id hsel l hl rfl).symm.trans hlock)
  · rintro ⟨ht, hsel⟩
    exact Bool.noConfusion ((hinv.2.1 ht l.id hsel l hl rfl).symm.trans hlock)
  · intro h0 cx cy
    simp only [step, stepPointerDownLayer]
    rw [if_neg (by simp [h0])]
    cases hfind : findLayer st.layers l.id with
    | none =>
      exfalso
      unfold findLayer at hfind
      exact absurd (by simp : (l.id == l.id) = true)
        (by simpa using List.find?_eq_none.mp hfind l hl)
    | some m =>
      obtain ⟨hmm, hmid⟩ := findLayer_spec hfind
      obtain rfl := layers_id_unique hinv.1 hmm hl hmid
      simp [hlock]
  · intro e
    exact step_locked_geometry st hinv e l hl hlock

/-- A one-layer demo state with a locked layer and no active gesture. -/
def lockedDemoState : AppState :=
  { layers := [{ newLayer "w7" "L" "img" 1 with isLocked := true }],
    selectedLayerId := none,
    dragStart := none,
    initialLayerState := none,
    isDraggingLayer := false,
    transform := none,
    viewport := ⟨0, 0, 1⟩ }

theorem lockedDemoState_inv : GestureInv lockedDemoState :=
  ⟨List.pairwise_singleton _ _, fun h => Bool.noConfusion h, fun h => Bool.noConfusion h,
    fun h => Bool.noConfusion h⟩

/-- Closed witness for `locked_layer_inert`. -/
theorem locked_layer_inert_witness :
    step lockedDemoState (PEvent.pointerDownLayer "w7" 3 4) = lockedDemoState := by
  have h := locked_layer_inert lockedDemoState lockedDemoState_inv
  exact (h.2 _ (List.mem_cons_self _ _) rfl).2.2.1 rfl 3 4

/-! ## Z-order and the export compositor -/

/-- The `(a, b) => a.zIndex - b.zIndex` comparator order used by every
`sort` call on layers. -/
def zleRel (a b : Layer) : Prop := a.zIndex ≤ b.zIndex

instance : DecidableRel zleRel := fun a b => Int.decLe a.zIndex b.zIndex

/-- `[...layers].sort((a, b) => a.zIndex - b.zIndex)`: a stable
ascending sort on `zIndex` (JavaScript `Array.prototype.sort` is
stable); insertion sort is the stable sort with the same result. -/
def sortZ (ls : List Layer) : List Layer := List.insertionSort zleRel ls

/-- One premultiplied-alpha pixel of the export canvas. -/
@[ext]
structure Pix where
  r : ℝ
  g : ℝ
  b : ℝ
  a : ℝ

/-- An idealized bitmap: pixel values over real coordinates (the export
canvas before integer rasterization). -/
def Img : Type := ℝ × ℝ → Pix

/-- The freshly allocated, fully transparent export canvas. -/
def transparentImg : Img := fun _ => ⟨0, 0, 0, 0⟩

/-- Modelled from the spec: `source-over` compositing (§4.5 step 4 — the
normal blend mode maps to plain source-over) on premultiplied-alpha
pixels. -/
def srcOver (s d : Pix) : Pix :=
  ⟨s.r + d.r * (1 - s.a), s.g + d.g * (1 - s.a), s.b + d.b * (1 - s.a), s.a + d.a * (1 - s.a)⟩

/-- Modelled from the spec: `ctx.globalAlpha` scales the drawn source by
the layer opacity. -/
def opacityScale (o : ℝ) (p : Pix) : Pix := ⟨o * p.r, o * p.g, o * p.b, o * p.a⟩

/-- Modelled from the spec: drawing a source image whose accumulated
canvas transform is the pure translation `(dx, dy)` (the
`translate(-minX, -minY)`, `translate(cx, cy)` and centered
`drawImage(img, -w/2, -h/2, w, h)` of `handleExport`, composed), with
`source-over` compositing and a global alpha. -/
def drawTranslated (dst src : Img) (dx dy o : ℝ) : Img :=
  fun q => srcOver (opacityScale o (src (q.1 - dx, q.2 - dy))) (dst q)

/-- One layer's draw step of the export loop. The color-correction
filter stack (`ctx.filter`), and the rasterization of a rotated or
scaled or non-normal-blend draw, are the browser's: they enter as the
parameters `ccApply` and `rasterizeExt`. -/
noncomputable def drawLayer (ccApply : ColorCorrection → Img → Img) (decode : String → Img)
    (rasterizeExt : Layer → Img → Img) (mnX mnY : ℝ) (dst : Img) (l : Layer) : Img :=
  if l.rotation = 0 ∧ l.scale = 1 ∧ l.blendMode = BlendMode.normal then
    drawTranslated dst (ccApply l.colorCorrection (decode l.src)) (l.x - mnX) (l.y - mnY)
      l.opacity
  else rasterizeExt l dst

/-- The pixel output of `handleExport`: visible layers only, drawn in
ascending `zIndex` order onto a transparent canvas translated by
`(-minX, -minY)`. -/
noncomputable def exportImage (ccApply : ColorCorrection → Img → Img) (decode : String → Img)
    (rasterizeExt : Layer → Img → Img) (ls : List Layer) : Option Img :=
  if ls.length = 0 then none
  else if (ls.filter (fun l => l.isVisible)).length = 0 then none
  else
    match exportBBox (ls.filter (fun l => l.isVisible)) with
    | some (mnX, mnY, _, _) =>
      some ((sortZ (ls.filter (fun l => l.isVisible))).foldl
        (drawLayer ccApply decode rasterizeExt mnX mnY) transparentImg)
    | none => none

/-- The bounding box of one layer through the geometry kernel. -/
noncomputable def layerBounds (l : Layer) : ℝ × ℝ × ℝ × ℝ :=
  transformedBounds l.x l.y l.width l.height l.rotation l.scale

/-- Union of two axis-aligned bounding boxes. -/
noncomputable def bboxUnion2 (p q : ℝ × ℝ × ℝ × ℝ) : ℝ × ℝ × ℝ × ℝ :=
  (min p.1 q.1, min p.2.1 q.2.1, max p.2.2.1 q.2.2.1, max p.2.2.2 q.2.2.2)

/-- The union of the transformed bounding boxes of a list of layers
(`none` for the empty list). -/
noncomputable def unionBBox : List Layer → Option (ℝ × ℝ × ℝ × ℝ)
  | [] => none
  | v :: vs => some (vs.foldl (fun acc l => bboxUnion2 acc (layerBounds l)) (layerBounds v))

theorem foldl_jsFoldMin_eq (xs : List ℝ) (m : ℝ) :
    xs.foldl jsFoldMin (some m) = some (xs.foldl min m) := by
  induction xs generalizing m with
  | nil => rfl
  | cons x xs ih => exact ih (min m x)

theorem foldl_jsFoldMax_eq (xs : List ℝ) (m : ℝ) :
    xs.foldl jsFoldMax (some m) = some (xs.foldl max m) := by
  induction xs generalizing m with
  | nil => rfl
  | cons x xs ih => exact ih (max m x)

theorem foldl_min_pull (xs : List ℝ) (a b : ℝ) :
    xs.foldl min (min a b) = min a (xs.foldl min b) := by
  induction xs generalizing b with
  | nil => rfl
  | cons c cs ih => rw [List.foldl_cons, List.foldl_cons, min_assoc, ih]

theorem foldl_max_pull (xs : List ℝ) (a b : ℝ) :
    xs.foldl max (max a b) = max a (xs.foldl max b) := by
  induction xs generalizing b with
  | nil => rfl
  | cons c cs ih => rw [List.foldl_cons, List.foldl_cons, max_assoc, ih]

theorem layerCornerXs_foldl_min (u : Layer) (m : ℝ) :
    (layerCornerXs u).foldl min m = min m (layerBounds u).1 := by
  show (cornerXs u.x u.y u.width u.height u.rotation u.scale).foldl min m = _
  simp only [layerBounds, transformedBounds, cornerXs, cornerYs]
  simp [min_assoc]

theorem layerCornerYs_foldl_min (u : Layer) (m : ℝ) :
    (layerCornerYs u).foldl min m = min m (layerBounds u).2.1 := by
  show (cornerYs u.x u.y u.width u.height u.rotation u.scale).foldl min m = _
  simp only [layerBounds, transformedBounds, cornerXs, cornerYs]
  simp [min_assoc]

theorem layerCornerXs_foldl_max (u : Layer) (m : ℝ) :
    (layerCornerXs u).foldl max m = max m (layerBounds u).2.2.1 := by
  show (cornerXs u.x u.y u.width u.height u.rotation u.scale).foldl max m = _
  simp only [layerBounds, transformedBounds, cornerXs, cornerYs]
  simp [max_assoc]

theorem layerCornerYs_foldl_max (u : Layer) (m : ℝ) :
    (layerCornerYs u).foldl max m = max m (layerBounds u).2.2.2 := by
  show (cornerYs u.x u.y u.width u.height u.rotation u.scale).foldl max m = _
  simp only [layerBounds, transformedBounds, cornerXs, cornerYs]
  simp [max_assoc]

theorem flatMap_foldl_min_x (vs : List Layer) (m : ℝ) :
    (vs.flatMap layerCornerXs).foldl min m =
      vs.foldl (fun acc l => min acc (layerBounds l).1) m := by
  induction vs generalizing m with
  | nil => rfl
  | cons u us ih =>
    rw [List.flatMap_cons, List.foldl_append, layerCornerXs_foldl_min, List.foldl_cons, ih]

theorem flatMap_foldl_min_y (vs : List Layer) (m : ℝ) :
    (vs.flatMap layerCornerYs).foldl min m =
      vs.foldl (fun acc l => min acc (layerBounds l).2.1) m := by
  induction vs generalizing m with
  | nil => rfl
  | cons u us ih =>
    rw [List.flatMap_cons, List.foldl_append, layerCornerYs_foldl_min, List.foldl_cons, ih]

theorem flatMap_foldl_max_x (vs : List Layer) (m : ℝ) :
    (vs.flatMap layerCornerXs).foldl max m =
      vs.foldl (fun acc l => max acc (layerBounds l).2.2.1) m := by
  induction vs generalizing m with
  | nil => rfl
  | cons u us ih =>
    rw [List.flatMap_cons, List.foldl_append, layerCornerXs_foldl_max, List.foldl_cons, ih]

theorem flatMap_foldl_max_y (vs : List Layer) (m : ℝ) :
    (vs.flatMap layerCornerYs).foldl max m =
      vs.foldl (fun acc l => max acc (layerBounds l).2.2.2) m := by
  induction vs generalizing m with
  | nil => rfl
  | cons u us ih =>
    rw [List.flatMap_cons, List.foldl_append, layerCornerYs_foldl_max, List.foldl_cons, ih]

theorem foldl_jsFoldMin_flat_x (v : Layer) (vs : List Layer) :
    ((v :: vs).flatMap layerCornerXs).foldl jsFoldMin none =
      some (vs.foldl (fun acc l => min acc (layerBounds l).1) (layerBounds v).1) := by
  rw [List.flatMap_cons]
  show ((cornerXs v.x v.y v.width v.height v.rotation v.scale) ++ _).foldl jsFoldMin none = _
  simp only [cornerXs]
  rw [List.cons_append, List.foldl_cons]
  rw [show jsFoldMin none _ = some _ from rfl, foldl_jsFoldMin_eq, List.foldl_append,
    flatMap_foldl_min_x]
  rfl

theorem foldl_jsFoldMin_flat_y (v : Layer) (vs : List Layer) :
    ((v :: vs).flatMap layerCornerYs).foldl jsFoldMin none =
      some (vs.foldl (fun acc l => min acc (layerBounds l).2.1) (layerBounds v).2.1) := by
  rw [List.flatMap_cons]
  show ((cornerYs v.x v.y v.width v.height v.rotation v.scale) ++ _).foldl jsFoldMin none = _
  simp only [cornerYs]
  rw [List.cons_append, List.foldl_cons]
  rw [show jsFoldMin none _ = some _ from rfl, foldl_jsFoldMin_eq, List.foldl_append,
    flatMap_foldl_min_y]
  rfl

theorem foldl_jsFoldMax_flat_x (v : Layer) (vs : List Layer) :
    ((v :: vs).flatMap layerCornerXs).foldl jsFoldMax none =
      some (vs.foldl (fun acc l => max acc (layerBounds l).2.2.1) (layerBounds v).2.2.1) := by
  rw [List.flatMap_cons]
  show ((cornerXs v.x v.y v.width v.height v.rotation v.scale) ++ _).foldl jsFoldMax none = _
  simp only [cornerXs]
  rw [List.cons_append, List.foldl_cons]
  rw [show jsFoldMax none _ = some _ from rfl, foldl_jsFoldMax_eq, List.foldl_append,
    flatMap_foldl_max_x]
  rfl

theorem foldl_jsFoldMax_flat_y (v : Layer) (vs : List Layer) :
    ((v :: vs).flatMap layerCornerYs).foldl jsFoldMax none =
      some (vs.foldl (fun acc l => max acc (layerBounds l).2.2.2) (layerBounds v).2.2.2) := by
  rw [List.flatMap_cons]
  show ((cornerYs v.x v.y v.width v.height v.rotation v.scale) ++ _).foldl jsFoldMax none = _
  simp only [cornerYs]
  rw [List.cons_append, List.foldl_cons]
  rw [show jsFoldMax none _ = some _ from rfl, foldl_jsFoldMax_eq, List.foldl_append,
    flatMap_foldl_max_y]
  rfl

theorem bboxFold_fst (vs : List Layer) (init : ℝ × ℝ × ℝ × ℝ) :
    (vs.foldl (fun acc l => bboxUnion2 acc (layerBounds l)) init).1 =
      vs.foldl (fun acc l => min acc (layerBounds l).1) init.1 := by
  induction vs generalizing init with
  | nil => rfl
  | cons u us ih => exact ih (bboxUnion2 init (layerBounds u))

theorem bboxFold_snd (vs : List Layer) (init : ℝ × ℝ × ℝ × ℝ) :
    (vs.foldl (fun acc l => bboxUnion2 acc (layerBounds l)) init).2.1 =
      vs.foldl (fun acc l => min acc (layerBounds l).2.1) init.2.1 := by
  induction vs generalizing init with
  | nil => rfl
  | cons u us ih => exact ih (bboxUnion2 init (layerBounds u))

theorem bboxFold_thd (vs : List Layer) (init : ℝ × ℝ × ℝ × ℝ) :
    (vs.foldl (fun acc l => bboxUnion2 acc (layerBounds l)) init).2.2.1 =
      vs.foldl (fun acc l => max acc (layerBounds l).2.2.1) init.2.2.1 := by
  induction vs generalizing init with
  | nil => rfl
  | cons u us ih => exact ih (bboxUnion2 init (layerBounds u))

theorem bboxFold_fth (vs : List Layer) (init : ℝ × ℝ × ℝ × ℝ) :
    (vs.foldl (fun acc l => bboxUnion2 acc (layerBounds l)) init).2.2.2 =
      vs.foldl (fun acc l => max acc (layerBounds l).2.2.2) init.2.2.2 := by
  induction vs generalizing init with
  | nil => rfl
  | cons u us ih => exact ih (bboxUnion2 init (layerBounds u))

theorem exportBBox_eq_union (ls : List Layer) : exportBBox ls = unionBBox ls := by
  cases ls with
  | nil => rfl
  | cons v vs =>
    simp only [exportBBox, unionBBox]
    rw [foldl_jsFoldMin_flat_x, foldl_jsFoldMin_flat_y, foldl_jsFoldMax_flat_x,
      foldl_jsFoldMax_flat_y]
    exact congrArg some
      (Prod.ext (bboxFold_fst vs (layerBounds v)).symm
        (Prod.ext (bboxFold_snd vs (layerBounds v)).symm
          (Prod.ext (bboxFold_thd vs (layerBounds v)).symm
            (bboxFold_fth vs (layerBounds v)).symm)))

theorem min4_le_max4 (a b c d : ℝ) :
    min (min (min a b) c) d ≤ max (max (max a b) c) d := by
  have h1 : min (min (min a b) c) d ≤ a :=
    le_trans (min_le_left _ _) (le_trans (min_le_left _ _) (min_le_left _ _))
  have h2 : a ≤ max (max (max a b) c) d :=
    le_trans (le_max_left a b) (le_trans (le_max_left _ _) (le_max_left _ _))
  exact le_trans h1 h2

theorem layerBounds_x_le (l : Layer) : (layerBounds l).1 ≤ (layerBounds l).2.2.1 := by
  simp only [layerBounds, transformedBounds, cornerXs, cornerYs]
  exact min4_le_max4 _ _ _ _

theorem layerBounds_y_le (l : Layer) : (layerBounds l).2.1 ≤ (layerBounds l).2.2.2 := by
  simp only [layerBounds, transformedBounds, cornerXs, cornerYs]
  exact min4_le_max4 _ _ _ _

theorem unionFold_min_le_max_x (vs : List Layer) (a c : ℝ) (h : a ≤ c) :
    vs.foldl (fun acc l => min acc (layerBounds l).1) a ≤
      vs.foldl (fun acc l => max acc (layerBounds l).2.2.1) c := by
  induction vs generalizing a c with
  | nil => exact h
  | cons u us ih =>
    exact ih _ _ (le_trans (min_le_left _ _) (le_trans h (le_max_left _ _)))

theorem unionFold_min_le_max_y (vs : List Layer) (a c : ℝ) (h : a ≤ c) :
    vs.foldl (fun acc l => min acc (layerBounds l).2.1) a ≤
      vs.foldl (fun acc l => max acc (layerBounds l).2.2.2) c := by
  induction vs generalizing a c with
  | nil => exact h
  | cons u us ih =>
    exact ih _ _ (le_trans (min_le_left _ _) (le_trans h (le_max_left _ _)))

theorem transformedBounds_trivial (x y w h : ℝ) (hw : 0 ≤ w) (hh : 0 ≤ h) :
    transformedBounds x y w h 0 1 = (x, y, x + w, y + h) := by
  simp only [transformedBounds, cornerXs, cornerYs, zero_mul, Real.cos_zero, Real.sin_zero]
  have e1 : x + w / 2 + (-(w / 2) * 1 * 1 - -(h / 2) * 1 * 0) = x := by ring
  have e2 : x + w / 2 + (w / 2 * 1 * 1 - -(h / 2) * 1 * 0) = x + w := by ring
  have e3 : x + w / 2 + (w / 2 * 1 * 1 - h / 2 * 1 * 0) = x + w := by ring
  have e4 : x + w / 2 + (-(w / 2) * 1 * 1 - h / 2 * 1 * 0) = x := by ring
  have f1 : y + h / 2 + (-(w / 2) * 1 * 0 + -(h / 2) * 1 * 1) = y := by ring
  have f2 : y + h / 2 + (w / 2 * 1 * 0 + -(h / 2) * 1 * 1) = y := by ring
  have f3 : y + h / 2 + (w / 2 * 1 * 0 + h / 2 * 1 * 1) = y + h := by ring
  have f4 : y + h / 2 + (-(w / 2) * 1 * 0 + h / 2 * 1 * 1) = y + h := by ring
  rw [e1, e2, e3, e4, f1, f2, f3, f4]
  have hx : x ≤ x + w := by linarith
  have hy : y ≤ y + h := by linarith
  rw [min_eq_left hx, min_eq_left hx, min_self,
    max_eq_right hx, max_self, max_eq_left hx,
    min_self, min_eq_left hy, min_eq_left hy,
    max_self, max_eq_right hy, max_eq_left (le_refl (y + h))]

theorem filter_ne_nil_length {ls : List Layer} {v : Layer} {vs : List Layer}
    (hvis : ls.filter (fun l => l.isVisible) = v :: vs) :
    ¬ls.length = 0 ∧ ¬(ls.filter (fun l => l.isVisible)).length = 0 := by
  constructor
  · intro hcon
    rw [List.length_eq_zero.mp hcon] at hvis
    exact List.noConfusion hvis
  · rw [hvis]
    simp

/-- C5: a store whose only visible layer is unrotated, unscaled, fully
opaque, normal-blend and default-color-corrected exports a bitmap of
exactly that layer's `width × height` whose pixels are byte-identical to
the decoded layer source; in general the output size is
`(maxX − minX) × (maxY − minY)` of the union of the visible layers'
transformed bounding boxes. `ccApply` is the browser's `ctx.filter`
semantics, required by the spec to be the identity at the default
settings. -/
theorem export_single_trivial_layer
    (ls : List Layer) (l : Layer)
    (hvis : ls.filter (fun m => m.isVisible) = [l])
    (hrot : l.rotation = 0) (hscale : l.scale = 1) (hop : l.opacity = 1)
    (hbm : l.blendMode = BlendMode.normal)
    (hcc : l.colorCorrection = DEFAULT_COLOR_CORRECTION)
    (hw : 0 ≤ l.width) (hh : 0 ≤ l.height)
    (ccApply : ColorCorrection → Img → Img) (decode : String → Img)
    (rasterizeExt : Layer → Img → Img)
    (hccid : ∀ img, ccApply DEFAULT_COLOR_CORRECTION img = img) :
    handleExport ls = ExportOutcome.success l.width l.height ∧
    exportImage ccApply decode rasterizeExt ls = some (decode l.src) ∧
    (∀ (ls' : List Layer) (bb : ℝ × ℝ × ℝ × ℝ),
      unionBBox (ls'.filter (fun m => m.isVisible)) = some bb →
      handleExport ls' = ExportOutcome.success (bb.2.2.1 - bb.1) (bb.2.2.2 - bb.2.1) ∧
      bb.1 ≤ bb.2.2.1 ∧ bb.2.1 ≤ bb.2.2.2) := by
  obtain ⟨hne, hfil⟩ := filter_ne_nil_length hvis
  have hlb : layerBounds l = (l.x, l.y, l.x + l.width, l.y + l.height) := by
    rw [layerBounds, hrot, hscale]
    exact transformedBounds_trivial l.x l.y l.width l.height hw hh
  have hbb : exportBBox (ls.filter (fun m => m.isVisible)) =
      some (l.x, l.y, l.x + l.width, l.y + l.height) := by
    rw [hvis, exportBBox_eq_union]
    simp only [unionBBox, List.foldl_nil]
    rw [hlb]
  refine ⟨?_, ?_, ?_⟩
  · simp only [handleExport, if_neg hne, if_neg hfil, hbb]
    have hwabs : |l.x + l.width - l.x| = l.width := by
      rw [show l.x + l.width - l.x = l.width by ring]
      exact abs_of_nonneg hw
    have hhabs : |l.y + l.height - l.y| = l.height := by
      rw [show l.y + l.height - l.y = l.height by ring]
      exact abs_of_nonneg hh
    rw [hwabs, hhabs]
  · simp only [exportImage, if_neg hne, if_neg hfil, hbb]
    rw [hvis]
    congr 1
    show drawLayer ccApply decode rasterizeExt l.x l.y transparentImg l = decode l.src
    rw [drawLayer, if_pos ⟨hrot, hscale, hbm⟩, hcc, hccid, hop]
    funext q
    show srcOver (opacityScale 1 (decode l.src (q.1 - (l.x - l.x), q.2 - (l.y - l.y))))
      (transparentImg q) = decode l.src q
    rw [show (q.1 - (l.x - l.x), q.2 - (l.y - l.y)) = q by
      rw [sub_self, sub_self, sub_zero, sub_zero]]
    show srcOver (opacityScale 1 (decode l.src q)) ⟨0, 0, 0, 0⟩ = decode l.src q
    apply Pix.ext <;> simp [srcOver, opacityScale]
  · intro ls' bb hu
    obtain ⟨b1, b2, b3, b4⟩ := bb
    cases hv' : ls'.filter (fun m => m.isVisible) with
    | nil => rw [hv'] at hu; exact absurd hu (by simp [unionBBox])
    | cons v vs =>
      obtain ⟨hne', hfil'⟩ := filter_ne_nil_length hv'
      have hbb' : exportBBox (ls'.filter (fun m => m.isVisible)) = some (b1, b2, b3, b4) := by
        rw [exportBBox_eq_union, hu]
      rw [hv'] at hu
      simp only [unionBBox, Option.some.injEq] at hu
      have hb1 : b1 = vs.foldl (fun acc m => min acc (layerBounds m).1) (layerBounds v).1 := by
        rw [show b1 = (b1, b2, b3, b4).1 from rfl, ← hu, bboxFold_fst]
      have hb2 : b2 = vs.foldl (fun acc m => min acc (layerBounds m).2.1)
          (layerBounds v).2.1 := by
        rw [show b2 = (b1, b2, b3, b4).2.1 from rfl, ← hu, bboxFold_snd]
      have hb3 : b3 = vs.foldl (fun acc m => max acc (layerBounds m).2.2.1)
          (layerBounds v).2.2.1 := by
        rw [show b3 = (b1, b2, b3, b4).2.2.1 from rfl, ← hu, bboxFold_thd]
      have hb4 : b4 = vs.foldl (fun acc m => max acc (layerBounds m).2.2.2)
          (layerBounds v).2.2.2 := by
        rw [show b4 = (b1, b2, b3, b4).2.2.2 from rfl, ← hu, bboxFold_fth]
      have hle13 : b1 ≤ b3 := by
        rw [hb1, hb3]
        exact unionFold_min_le_max_x vs _ _ (layerBounds_x_le v)
      have hle24 : b2 ≤ b4 := by
        rw [hb2, hb4]
        exact unionFold_min_le_max_y vs _ _ (layerBounds_y_le v)
      refine ⟨?_, hle13, hle24⟩
      simp only [handleExport, if_neg hne', if_neg hfil', hbb']
      rw [abs_of_nonneg (by linarith : (0:ℝ) ≤ b3 - b1),
        abs_of_nonneg (by linarith : (0:ℝ) ≤ b4 - b2)]

/-- Closed witness for `export_single_trivial_layer`. -/
theorem export_single_trivial_layer_witness :
    [newLayer "5" "L" "imgsrc" 1].filter (fun m => m.isVisible) =
        [newLayer "5" "L" "imgsrc" 1] ∧
      handleExport [newLayer "5" "L" "imgsrc" 1] = ExportOutcome.success 300 300 := by
  have h := export_single_trivial_layer [newLayer "5" "L" "imgsrc" 1]
    (newLayer "5" "L" "imgsrc" 1) rfl rfl rfl rfl rfl rfl
    (by norm_num : (0:ℝ) ≤ 300) (by norm_num : (0:ℝ) ≤ 300)
    (fun _ img => img) (fun _ => transparentImg) (fun _ d => d) (fun img => rfl)
  exact ⟨rfl, h.1⟩

/-! ## Z-order reordering (`moveLayer` in the `App` component) -/

/-- The `direction: 'up' | 'down'` argument of `moveLayer`. -/
inductive ZDir where
  | up
  | down
deriving DecidableEq, Repr

/-- The in-place `zIndex` swap of `moveLayer`:
`tempZ = sorted[i].zIndex; sorted[i].zIndex = sorted[j].zIndex;
sorted[j].zIndex = tempZ`. Out-of-range indices leave the list
unchanged. -/
def swapZ (ls : List Layer) (i j : ℕ) : List Layer :=
  match ls[i]?, ls[j]? with
  | some a, some b =>
    (ls.set i { a with zIndex := b.zIndex }).set j { b with zIndex := a.zIndex }
  | _, _ => ls

/-- `moveLayer(id, direction)`: sort a copy by `zIndex`, locate the
target by id (`findIndex`; `List.findIdx` returns the length where
JavaScript returns `-1`), return the store unchanged at the extremes,
otherwise swap `zIndex` values with the adjacent neighbor and re-sort. -/
def moveZ (ls : List Layer) (id : String) (dir : ZDir) : List Layer :=
  let sorted := sortZ ls
  let index := sorted.findIdx (fun l => l.id == id)
  if index = sorted.length then ls
  else if dir = ZDir.up ∧ index = sorted.length - 1 then ls
  else if dir = ZDir.down ∧ index = 0 then ls
  else
    let targetIndex := if dir = ZDir.up then index + 1 else index - 1
    sortZ (swapZ sorted index targetIndex)

/-- The strict `zIndex` order. -/
def zltRel (a b : Layer) : Prop := a.zIndex < b.zIndex

instance : IsTotal Layer zleRel := ⟨fun a b => Int.le_total a.zIndex b.zIndex⟩

instance : IsTrans Layer zleRel := ⟨fun _ _ _ hab hbc => le_trans hab hbc⟩

instance : IsAntisymm Layer zltRel := ⟨fun _ _ h1 h2 => absurd h1 (lt_asymm h2)⟩

instance : IsTrans Layer zltRel := ⟨fun _ _ _ hab hbc => lt_trans hab hbc⟩

theorem findIdx_append_cons {p : Layer → Bool} {l₁ : List Layer} {a : Layer}
    (l₂ : List Layer) (h₁ : ∀ x ∈ l₁, p x = false) (ha : p a = true) :
    (l₁ ++ a :: l₂).findIdx p = l₁.length := by
  induction l₁ with
  | nil => simp [List.findIdx_cons, ha]
  | cons x xs ih =>
    rw [List.cons_append, List.findIdx_cons, h₁ x (List.mem_cons_self x xs)]
    simp only [cond_false]
    rw [ih (fun y hy => h₁ y (List.mem_cons_of_mem x hy))]
    rfl

theorem swapZ_cons (x : Layer) (rest : List Layer) (i j : ℕ) :
    swapZ (x :: rest) (i + 1) (j + 1) = x :: swapZ rest i j := by
  unfold swapZ
  cases hi : rest[i]? with
  | none => simp [hi]
  | some a =>
    cases hj : rest[j]? with
    | none => simp [hi, hj]
    | some b => simp [hi, hj]

theorem swapZ_adjacent (l₁ : List Layer) (a b : Layer) (l₂ : List Layer) :
    swapZ (l₁ ++ a :: b :: l₂) l₁.length (l₁.length + 1) =
      l₁ ++ { a with zIndex := b.zIndex } :: { b with zIndex := a.zIndex } :: l₂ := by
  induction l₁ with
  | nil => simp [swapZ]
  | cons x xs ih =>
    rw [List.cons_append, List.length_cons, swapZ_cons, ih, List.cons_append]

theorem swapZ_adjacent_rev (l₁ : List Layer) (a b : Layer) (l₂ : List Layer) :
    swapZ (l₁ ++ a :: b :: l₂) (l₁.length + 1) l₁.length =
      l₁ ++ { a with zIndex := b.zIndex } :: { b with zIndex := a.zIndex } :: l₂ := by
  induction l₁ with
  | nil => simp [swapZ]
  | cons x xs ih =>
    rw [List.cons_append, List.length_cons, swapZ_cons, ih, List.cons_append]

theorem pairwise_lt_of_le_ne {S : List Layer} (hs : S.Pairwise zleRel)
    (hz : S.Pairwise fun a b => a.zIndex ≠ b.zIndex) : S.Pairwise zltRel :=
  (hs.and hz).imp fun h => lt_of_le_of_ne h.1 h.2

theorem pairwise_nez_of_perm {X Y : List Layer} (h : X.Perm Y)
    (hY : Y.Pairwise fun a b => a.zIndex ≠ b.zIndex) :
    X.Pairwise fun a b => a.zIndex ≠ b.zIndex := by
  have hY' : (Y.map fun l => l.zIndex).Nodup := List.pairwise_map.mpr hY
  have hX' : (X.map fun l => l.zIndex).Nodup :=
    ((h.map fun l => l.zIndex).nodup_iff).mpr hY'
  exact List.pairwise_map.mp hX'

theorem pairwise_neid_of_perm {X Y : List Layer} (h : X.Perm Y)
    (hY : Y.Pairwise fun a b => a.id ≠ b.id) :
    X.Pairwise fun a b => a.id ≠ b.id := by
  have hY' : (Y.map fun l => l.id).Nodup := List.pairwise_map.mpr hY
  have hX' : (X.map fun l => l.id).Nodup :=
    ((h.map fun l => l.id).nodup_iff).mpr hY'
  exact List.pairwise_map.mp hX'

/-- Re-sorting any permutation of a strictly `zIndex`-sorted list
returns that list. -/
theorem sortZ_eq_of_perm_strict {X T : List Layer} (hperm : X.Perm T)
    (hT : T.Pairwise zltRel) : sortZ X = T := by
  have hsorted : (sortZ X).Pairwise zleRel := List.sorted_insertionSort zleRel X
  have hperm2 : (sortZ X).Perm T := (List.perm_insertionSort zleRel X).trans hperm
  have hnez : (sortZ X).Pairwise fun a b => a.zIndex ≠ b.zIndex :=
    pairwise_nez_of_perm hperm2 (hT.imp fun h => ne_of_lt h)
  exact List.eq_of_perm_of_sorted hperm2 (pairwise_lt_of_le_ne hsorted hnez) hT

theorem pairwise_swap_mid (l₁ : List Layer) (a b : Layer) (l₂ : List Layer)
    (h : (l₁ ++ a :: b :: l₂).Pairwise zltRel) :
    (l₁ ++ { b with zIndex := a.zIndex } :: { a with zIndex := b.zIndex } :: l₂).Pairwise
      zltRel := by
  have hmap : ((l₁ ++ a :: b :: l₂).map fun l => l.zIndex).Pairwise (fun x y => x < y) :=
    List.pairwise_map.mpr h
  have h2 : ((l₁ ++ { b with zIndex := a.zIndex } :: { a with zIndex := b.zIndex } :: l₂).map
      fun l => l.zIndex).Pairwise (fun x y => x < y) := by
    have heq : ((l₁ ++ { b with zIndex := a.zIndex } :: { a with zIndex := b.zIndex } :: l₂).map
        fun l => l.zIndex) = ((l₁ ++ a :: b :: l₂).map fun l => l.zIndex) := by
      simp
    rw [heq]
    exact hmap
  have h3 := List.pairwise_map.mp h2
  exact h3

theorem moveZ_up_swap {ls : List Layer} {l : Layer}
    (hz : ls.Pairwise fun a b => a.zIndex ≠ b.zIndex)
    (hid : ls.Pairwise fun a b => a.id ≠ b.id)
    (hl : l ∈ ls) (habove : ∃ m ∈ ls, l.zIndex < m.zIndex) :
    ∃ l₁ M l₂,
      sortZ ls = l₁ ++ l :: M :: l₂ ∧
      moveZ ls l.id ZDir.up =
        l₁ ++ { M with zIndex := l.zIndex } :: { l with zIndex := M.zIndex } :: l₂ ∧
      (l₁ ++ { M with zIndex := l.zIndex } :: { l with zIndex := M.zIndex } :: l₂).Pairwise
        zltRel ∧
      M.id ≠ l.id ∧ (∀ x ∈ l₁, x.id ≠ l.id) := by
  have hSle : (sortZ ls).Pairwise zleRel := List.sorted_insertionSort zleRel ls
  have hperm : (sortZ ls).Perm ls := List.perm_insertionSort zleRel ls
  have hzS := pairwise_nez_of_perm hperm hz
  have hidS := pairwise_neid_of_perm hperm hid
  have hstrict : (sortZ ls).Pairwise zltRel := pairwise_lt_of_le_ne hSle hzS
  have hlS : l ∈ sortZ ls := hperm.mem_iff.mpr hl
  obtain ⟨l₁, l₂, hS⟩ := List.append_of_mem hlS
  cases l₂ with
  | nil =>
    exfalso
    obtain ⟨m, hm, hlt⟩ := habove
    have hmS : m ∈ sortZ ls := hperm.mem_iff.mpr hm
    rw [hS] at hmS hstrict
    rcases List.mem_append.mp hmS with hm1 | hm2
    · exact absurd hlt (lt_asymm ((List.pairwise_append.mp hstrict).2.2 m hm1 l
        (List.mem_singleton_self l)))
    · rw [List.mem_singleton.mp hm2] at hlt
      exact lt_irrefl _ hlt
  | cons M l₂' =>
    rw [hS] at hstrict hidS
    have hcross := (List.pairwise_append.mp hidS).2.2
    have hl1id : ∀ x ∈ l₁, x.id ≠ l.id :=
      fun x hx => hcross x hx l (List.mem_cons_self _ _)
    have hlM : l.id ≠ M.id :=
      (List.pairwise_cons.mp (List.pairwise_append.mp hidS).2.1).1 M (List.mem_cons_self _ _)
    have hfi : (sortZ ls).findIdx (fun m => m.id == l.id) = l₁.length := by
      rw [hS]
      exact findIdx_append_cons _ (fun x hx => by simp [hl1id x hx]) (by simp)
    have hlen : (sortZ ls).length = l₁.length + (l₂'.length + 2) := by
      rw [hS]
      simp [List.length_append]
    refine ⟨l₁, M, l₂', hS, ?_, pairwise_swap_mid l₁ l M l₂' hstrict, hlM.symm, hl1id⟩
    simp only [moveZ, hfi, hlen]
    rw [if_neg (by omega), if_neg (by simp), if_pos trivial]
    rw [hS, swapZ_adjacent]
    exact sortZ_eq_of_perm_strict
      ((List.Perm.swap { M with zIndex := l.zIndex } { l with zIndex := M.zIndex } l₂').append_left
        l₁)
      (pairwise_swap_mid l₁ l M l₂' hstrict)

theorem moveZ_down_swap {ls : List Layer} {l : Layer}
    (hz : ls.Pairwise fun a b => a.zIndex ≠ b.zIndex)
    (hid : ls.Pairwise fun a b => a.id ≠ b.id)
    (hl : l ∈ ls) (hbelow : ∃ m ∈ ls, m.zIndex < l.zIndex) :
    ∃ l₁ M l₂,
      sortZ ls = l₁ ++ M :: l :: l₂ ∧
      moveZ ls l.id ZDir.down =
        l₁ ++ { l with zIndex := M.zIndex } :: { M with zIndex := l.zIndex } :: l₂ ∧
      (l₁ ++ { l with zIndex := M.zIndex } :: { M with zIndex := l.zIndex } :: l₂).Pairwise
        zltRel ∧
      M.id ≠ l.id ∧ (∀ x ∈ l₁, x.id ≠ l.id) := by
  have hSle : (sortZ ls).Pairwise zleRel := List.sorted_insertionSort zleRel ls
  have hperm : (sortZ ls).Perm ls := List.perm_insertionSort zleRel ls
  have hzS := pairwise_nez_of_perm hperm hz
  have hidS := pairwise_neid_of_perm hperm hid
  have hstrict : (sortZ ls).Pairwise zltRel := pairwise_lt_of_le_ne hSle hzS
  have hlS : l ∈ sortZ ls := hperm.mem_iff.mpr hl
  obtain ⟨l₁', l₂, hS0⟩ := List.append_of_mem hlS
  rcases List.eq_nil_or_concat l₁' with rfl | ⟨L, M, rfl⟩
  · exfalso
    obtain ⟨m, hm, hlt⟩ := hbelow
    have hmS : m ∈ sortZ ls := hperm.mem_iff.mpr hm
    rw [hS0] at hmS hstrict
    rcases List.mem_cons.mp hmS with rfl | hm2
    · exact lt_irrefl _ hlt
    · exact absurd hlt (lt_asymm ((List.pairwise_cons.mp hstrict).1 m hm2))
  · have hS : sortZ ls = L ++ M :: l :: l₂ := by
      rw [hS0, List.concat_eq_append, List.append_assoc]
      rfl
    rw [hS] at hstrict hidS
    have hcross := (List.pairwise_append.mp hidS).2.2
    have hl1id : ∀ x ∈ L, x.id ≠ l.id :=
      fun x hx => hcross x hx l (List.mem_cons_of_mem _ (List.mem_cons_self _ _))
    have hMl : M.id ≠ l.id :=
      (List.pairwise_cons.mp (List.pairwise_append.mp hidS).2.1).1 l (List.mem_cons_self _ _)
    have hfi : (sortZ ls).findIdx (fun m => m.id == l.id) = L.length + 1 := by
      rw [hS, show L ++ M :: l :: l₂ = (L ++ [M]) ++ l :: l₂ by
        rw [List.append_assoc]; rfl]
      rw [findIdx_append_cons l₂ ?_ (by simp)]
      · simp
      · intro x hx
        rcases List.mem_append.mp hx with hx1 | hx2
        · simp [hl1id x hx1]
        · rw [List.mem_singleton.mp hx2]
          simp [hMl]
    have hlen : (sortZ ls).length = L.length + (l₂.length + 2) := by
      rw [hS]
      simp [List.length_append]
    refine ⟨L, M, l₂, hS, ?_, pairwise_swap_mid L M l l₂ hstrict, hMl, hl1id⟩
    simp only [moveZ, hfi, hlen]
    rw [if_neg (by omega), if_neg (by simp), if_neg (by simp),
      if_neg (show ¬(ZDir.down = ZDir.up) by simp),
      show L.length + 1 - 1 = L.length from rfl, hS, swapZ_adjacent_rev]
    exact sortZ_eq_of_perm_strict
      ((List.Perm.swap { l with zIndex := M.zIndex } { M with zIndex := l.zIndex } l₂).append_left
        L)
      (pairwise_swap_mid L M l l₂ hstrict)

theorem moveZ_up_noop {ls : List Layer} {l : Layer}
    (hz : ls.Pairwise fun a b => a.zIndex ≠ b.zIndex)
    (hid : ls.Pairwise fun a b => a.id ≠ b.id)
    (hl : l ∈ ls) (htop : ∀ m ∈ ls, m.id ≠ l.id → m.zIndex < l.zIndex) :
    moveZ ls l.id ZDir.up = ls := by
  have hSle : (sortZ ls).Pairwise zleRel := List.sorted_insertionSort zleRel ls
  have hperm : (sortZ ls).Perm ls := List.perm_insertionSort zleRel ls
  have hzS := pairwise_nez_of_perm hperm hz
  have hidS := pairwise_neid_of_perm hperm hid
  have hstrict : (sortZ ls).Pairwise zltRel := pairwise_lt_of_le_ne hSle hzS
  have hlS : l ∈ sortZ ls := hperm.mem_iff.mpr hl
  obtain ⟨l₁, l₂, hS⟩ := List.append_of_mem hlS
  cases l₂ with
  | cons M l₂' =>
    exfalso
    rw [hS] at hstrict hidS
    have hMls : M ∈ ls := hperm.mem_iff.mp (by
      rw [hS]
      exact List.mem_append_right _ (List.mem_cons_of_mem _ (List.mem_cons_self _ _)))
    have hlM : l.id ≠ M.id :=
      (List.pairwise_cons.mp (List.pairwise_append.mp hidS).2.1).1 M (List.mem_cons_self _ _)
    have h1 : M.zIndex < l.zIndex := htop M hMls (fun h => hlM h.symm)
    have h2 : l.zIndex < M.zIndex :=
      (List.pairwise_cons.mp (List.pairwise_append.mp hstrict).2.1).1 M
        (List.mem_cons_self _ _)
    exact lt_irrefl _ (lt_trans h1 h2)
  | nil =>
    rw [hS] at hidS
    have hl1id : ∀ x ∈ l₁, x.id ≠ l.id := fun x hx =>
      (List.pairwise_append.mp hidS).2.2 x hx l (List.mem_singleton_self l)
    have hfi : (sortZ ls).findIdx (fun m => m.id == l.id) = l₁.length := by
      rw [hS]
      exact findIdx_append_cons _ (fun x hx => by simp [hl1id x hx]) (by simp)
    have hlen : (sortZ ls).length = l₁.length + 1 := by
      rw [hS]
      simp
    simp only [moveZ, hfi, hlen]
    rw [if_neg (by omega), if_pos ⟨trivial, by omega⟩]

theorem moveZ_down_noop {ls : List Layer} {l : Layer}
    (hz : ls.Pairwise fun a b => a.zIndex ≠ b.zIndex)
    (hid : ls.Pairwise fun a b => a.id ≠ b.id)
    (hl : l ∈ ls) (hbot : ∀ m ∈ ls, m.id ≠ l.id → l.zIndex < m.zIndex) :
    moveZ ls l.id ZDir.down = ls := by
  have hSle : (sortZ ls).Pairwise zleRel := List.sorted_insertionSort zleRel ls
  have hperm : (sortZ ls).Perm ls := List.perm_insertionSort zleRel ls
  have hzS := pairwise_nez_of_perm hperm hz
  have hidS := pairwise_neid_of_perm hperm hid
  have hstrict : (sortZ ls).Pairwise zltRel := pairwise_lt_of_le_ne hSle hzS
  have hlS : l ∈ sortZ ls := hperm.mem_iff.mpr hl
  obtain ⟨l₁', l₂, hS0⟩ := List.append_of_mem hlS
  rcases List.eq_nil_or_concat l₁' with rfl | ⟨L, M, rfl⟩
  · have hfi : (sortZ ls).findIdx (fun m => m.id == l.id) = 0 := by
      rw [hS0]
      exact findIdx_append_cons _ (fun x hx => absurd hx (List.not_mem_nil x)) (by simp)
    have hlen : (sortZ ls).length = l₂.length + 1 := by
      rw [hS0]
      simp
    simp only [moveZ, hfi, hlen]
    rw [if_neg (by omega), if_neg (by simp), if_pos ⟨trivial, trivial⟩]
  · exfalso
    have hS : sortZ ls = L ++ M :: l :: l₂ := by
      rw [hS0, List.concat_eq_append, List.append_assoc]
      rfl
    rw [hS] at hstrict hidS
    have hMls : M ∈ ls := hperm.mem_iff.mp (by
      rw [hS]
      exact List.mem_append_right _ (List.mem_cons_self _ _))
    have hMl : M.id ≠ l.id :=
      (List.pairwise_cons.mp (List.pairwise_append.mp hidS).2.1).1 l (List.mem_cons_self _ _)
    have h1 : l.zIndex < M.zIndex := hbot M hMls hMl
    have h2 : M.zIndex < l.zIndex :=
      (List.pairwise_cons.mp (List.pairwise_append.mp hstrict).2.1).1 l (List.mem_cons_self _ _)
    exact lt_irrefl _ (lt_trans h1 h2)

/-- C3 (amended): on a store with pairwise-distinct `zIndex` values and
ids, `moveZ` "up" on a layer with a strictly higher neighbor is exactly
the adjacent transposition that swaps the layer's `zIndex` with its
immediate neighbor in `zIndex`-ascending order, and following it with
"down" (or the mirror "down" then "up") restores the `zIndex`-sorted
store exactly; a `moveZ` toward an extreme the layer already occupies is
a no-op on the store. -/
theorem moveZ_adjacent_transposition (ls : List Layer)
    (hz : ls.Pairwise fun a b => a.zIndex ≠ b.zIndex)
    (hid : ls.Pairwise fun a b => a.id ≠ b.id)
    (l : Layer) (hl : l ∈ ls) :
    ((∃ m ∈ ls, l.zIndex < m.zIndex) →
      (∃ l₁ M l₂, sortZ ls = l₁ ++ l :: M :: l₂ ∧
        moveZ ls l.id ZDir.up =
          l₁ ++ { M with zIndex := l.zIndex } :: { l with zIndex := M.zIndex } :: l₂) ∧
      moveZ (moveZ ls l.id ZDir.up) l.id ZDir.down = sortZ ls) ∧
    ((∃ m ∈ ls, m.zIndex < l.zIndex) →
      moveZ (moveZ ls l.id ZDir.down) l.id ZDir.up = sortZ ls) ∧
    ((∀ m ∈ ls, m.id ≠ l.id → m.zIndex < l.zIndex) → moveZ ls l.id ZDir.up = ls) ∧
    ((∀ m ∈ ls, m.id ≠ l.id → l.zIndex < m.zIndex) → moveZ ls l.id ZDir.down = ls) := by
  have hstrict0 : (sortZ ls).Pairwise zltRel :=
    pairwise_lt_of_le_ne (List.sorted_insertionSort zleRel ls)
      (pairwise_nez_of_perm (List.perm_insertionSort zleRel ls) hz)
  refine ⟨fun habove => ?_, fun hbelow => ?_, moveZ_up_noop hz hid hl,
    moveZ_down_noop hz hid hl⟩
  · obtain ⟨l₁, M, l₂, hS, hup, hstrict1, hMid, hl1id⟩ := moveZ_up_swap hz hid hl habove
    refine ⟨⟨l₁, M, l₂, hS, hup⟩, ?_⟩
    rw [hup]
    have hsort1 : sortZ (l₁ ++ { M with zIndex := l.zIndex } ::
        { l with zIndex := M.zIndex } :: l₂) =
        l₁ ++ { M with zIndex := l.zIndex } :: { l with zIndex := M.zIndex } :: l₂ :=
      List.Sorted.insertionSort_eq (hstrict1.imp fun h => le_of_lt h)
    have hfi2 : (l₁ ++ { M with zIndex := l.zIndex } ::
        { l with zIndex := M.zIndex } :: l₂).findIdx (fun m => m.id == l.id) =
        l₁.length + 1 := by
      rw [show l₁ ++ { M with zIndex := l.zIndex } :: { l with zIndex := M.zIndex } :: l₂ =
        (l₁ ++ [{ M with zIndex := l.zIndex }]) ++ { l with zIndex := M.zIndex } :: l₂ by
          rw [List.append_assoc]
          rfl]
      rw [findIdx_append_cons l₂ ?_ (by simp)]
      · simp
      · intro x hx
        rcases List.mem_append.mp hx with hx1 | hx2
        · simp [hl1id x hx1]
        · rw [List.mem_singleton.mp hx2]
          simp [hMid]
    have hlen2 : (l₁ ++ { M with zIndex := l.zIndex } ::
        { l with zIndex := M.zIndex } :: l₂).length = l₁.length + (l₂.length + 2) := by
      simp [List.length_append]
    simp only [moveZ, hsort1, hfi2, hlen2]
    rw [if_neg (by omega), if_neg (by simp), if_neg (by simp),
      if_neg (show ¬(ZDir.down = ZDir.up) by simp),
      show l₁.length + 1 - 1 = l₁.length from rfl, swapZ_adjacent_rev, hS]
    have hstrictS : (l₁ ++ l :: M :: l₂).Pairwise zltRel := by
      rw [← hS]
      exact hstrict0
    exact sortZ_eq_of_perm_strict ((List.Perm.swap l M l₂).append_left l₁) hstrictS
  · obtain ⟨l₁, M, l₂, hS, hdn, hstrict1, hMid, hl1id⟩ := moveZ_down_swap hz hid hl hbelow
    rw [hdn]
    have hsort1 : sortZ (l₁ ++ { l with zIndex := M.zIndex } ::
        { M with zIndex := l.zIndex } :: l₂) =
        l₁ ++ { l with zIndex := M.zIndex } :: { M with zIndex := l.zIndex } :: l₂ :=
      List.Sorted.insertionSort_eq (hstrict1.imp fun h => le_of_lt h)
    have hfi2 : (l₁ ++ { l with zIndex := M.zIndex } ::
        { M with zIndex := l.zIndex } :: l₂).findIdx (fun m => m.id == l.id) =
        l₁.length := by
      exact findIdx_append_cons _ (fun x hx => by simp [hl1id x hx]) (by simp)
    have hlen2 : (l₁ ++ { l with zIndex := M.zIndex } ::
        { M with zIndex := l.zIndex } :: l₂).length = l₁.length + (l₂.length + 2) := by
      simp [List.length_append]
    simp only [moveZ, hsort1, hfi2, hlen2]
    rw [if_neg (by omega), if_neg (by simp), if_neg (by simp), if_pos trivial,
      swapZ_adjacent, hS]
    have hstrictS : (l₁ ++ M :: l :: l₂).Pairwise zltRel := by
      rw [← hS]
      exact hstrict0
    exact sortZ_eq_of_perm_strict ((List.Perm.swap M l l₂).append_left l₁) hstrictS

/-- C3 counterexample: with the topmost layer, "up" is a no-op, so "up"
then "down" moves the layer down instead of restoring the original
ordering. -/
theorem moveZ_up_down_counterexample :
    (moveZ (moveZ [newLayer "A" "A" "s" 1, newLayer "B" "B" "s" 2] "B" ZDir.up)
        "B" ZDir.down).map (fun m => (m.id, m.zIndex)) = [("B", 1), ("A", 2)] ∧
    ([newLayer "A" "A" "s" 1, newLayer "B" "B" "s" 2].map fun m => (m.id, m.zIndex)) =
      [("A", 1), ("B", 2)] ∧
    ([("B", 1), ("A", 2)] : List (String × ℤ)) ≠ [("A", 1), ("B", 2)] := by
  refine ⟨rfl, rfl, by decide⟩

/-- Closed witness for `moveZ_adjacent_transposition`. -/
theorem moveZ_adjacent_transposition_witness :
    moveZ (moveZ [newLayer "A" "A" "s" 1, newLayer "B" "B" "s" 2] "A" ZDir.up)
        "A" ZDir.down = sortZ [newLayer "A" "A" "s" 1, newLayer "B" "B" "s" 2] := by
  have h := moveZ_adjacent_transposition [newLayer "A" "A" "s" 1, newLayer "B" "B" "s" 2]
    (by simp [newLayer]) (by simp [newLayer]) (newLayer "A" "A" "s" 1)
    (List.mem_cons_self _ _)
  exact (h.1 ⟨newLayer "B" "B" "s" 2,
    List.mem_cons_of_mem _ (List.mem_cons_self _ _), by norm_num [newLayer]⟩).2
